import Mathlib

/-!
# Verification of the 2048 bitboard move-selection engine

This file is a shallow embedding, in Lean 4, of the TypeScript 2048 AI core
(64-bit packed board, precomputed per-row move tables, expectimax search with
a transposition cache and an optional wall-clock budget), together with
theorems settling the specification claims about it.

Modelling conventions:

* JavaScript `BigInt` is arbitrary-precision and its `&`, `|`, `^`, `<<`, `>>`
  agree with `Nat.land`/`lor`/`xor`/`shiftLeft`/`shiftRight` on nonnegative
  values, so packed boards are embedded as `Nat`.  The one use of BigInt `~`
  (inside `countEmpty`) occurs under a mask `&`, and `~x & m` is rendered as
  `(x &&& m) ^^^ m`, which is bit-for-bit the same function.
* `Float` scores are embedded as `ℚ`.  All numeric literals appearing in the
  search control flow (`0.9`, `0.1`, `0.0001`, `1e-6`) are exactly
  representable; the heuristic tables hold values of transcendental
  expressions (`rank ^ 3.5`), so the heuristic row table is kept as an
  arbitrary parameter `T : ℕ → ℚ`.  Every claim proved below holds for all
  values of that table.
* The two mutually recursive search procedures terminate in the source
  because the depth grows toward `depthLimit`; the embedding makes the
  recursion structural by threading a fuel counter that every recursive call
  decrements, and the claims are proved for every fuel value.
* The wall clock `now()` is modelled by an oracle `τ : ℕ → ℚ` giving the
  value of the n-th call, with a call counter threaded in the state.
* Module-level mutable arrays filled once by the table initialisation loop
  are embedded as total functions giving the array contents.
-/

namespace Ai2048

/-- The four move directions, as in `game.ts`. -/
inductive Direction where
  | up : Direction
  | down : Direction
  | left : Direction
  | right : Direction
deriving DecidableEq

/-- A tile of the collaborator's sparse model: `{ value, row, col }`.
The `id : string` field of the source is dropped: the engine reads only
`value`, `row` and `col`. -/
structure Tile where
  value : ℕ
  row : ℕ
  col : ℕ
deriving DecidableEq

/-- `ROW_MASK = 0xffff`. -/
def ROW_MASK : ℕ := 0xffff

/-- `COL_MASK = 0x000f000f000f000f`. -/
def COL_MASK : ℕ := 0x000f000f000f000f

/-- `reverseRow`: reverse the four nibbles of a 16-bit row.  The JS source
works on 32-bit `number` values and masks with `0xffff`, which for inputs
below `2^16` agrees with this `Nat` rendering. -/
def reverseRow (row : ℕ) : ℕ :=
  ((row >>> 12) ||| ((row >>> 4) &&& 0x00f0) ||| ((row <<< 4) &&& 0x0f00) |||
      (row <<< 12)) &&& 0xffff

/-- `unpackCol`: spread the 4 nibbles of a row into the 4 column-nibble
positions of a 64-bit board. -/
def unpackCol (row : ℕ) : ℕ :=
  (row ||| (row <<< 12) ||| (row <<< 24) ||| (row <<< 36)) &&& COL_MASK

/-- `transpose`: nibble-transpose of the 4×4 board packed in a 64-bit word. -/
def transpose (x : ℕ) : ℕ :=
  let a1 := x &&& 0xf0f00f0ff0f00f0f
  let a2 := x &&& 0x0000f0f00000f0f0
  let a3 := x &&& 0x0f0f00000f0f0000
  let a := a1 ||| (a2 <<< 12) ||| (a3 >>> 12)
  let b1 := a &&& 0xff00ff0000ff00ff
  let b2 := a &&& 0x00ff00ff00000000
  let b3 := a &&& 0x00000000ff00ff00
  b1 ||| (b2 >>> 24) ||| (b3 <<< 24)

/-- The 4 nibbles of a 16-bit row pattern, low nibble first: the `line`
array built at the top of the table-generation loop. -/
def line (row : ℕ) : List ℕ :=
  [row &&& 0xf, (row >>> 4) &&& 0xf, (row >>> 8) &&& 0xf, (row >>> 12) &&& 0xf]

/-- The inner `while (j < 4 && moveLine[j] === 0) j += 1` scan: first index
`j' ≥ j` holding a nonzero nibble, or `4`.  The countdown argument `4 - j`
bounds the number of steps, keeping the recursion structural. -/
def nextNonzeroAux (ml : List ℕ) : ℕ → ℕ → ℕ
  | 0, j => j
  | k + 1, j => if ml.getD j 0 = 0 then nextNonzeroAux ml k (j + 1) else j

/-- Entry point of the nonzero scan at index `j`. -/
def nextNonzero (ml : List ℕ) (j : ℕ) : ℕ := nextNonzeroAux ml (4 - j) j

/-- The slide-and-merge loop of the table generator
(`for (let i = 0; i < 3; i += 1) ...` over `moveLine`).  The JS loop body
either advances `i`, or (in the pull-forward case) executes `i -= 1`
followed by the loop's `i += 1`, i.e. retries the same `i`; one merge per
target cell, a merge of two rank-15 nibbles leaves rank 15 (`moveLine[i]`
is incremented only when it is not `0xf`) and zeroes the source.  A run of
the JS loop performs at most two iterations per `i ∈ {0,1,2}` (a pull
into a zero slot is immediately followed by an advancing iteration), so
six iterations suffice; the fuel of `8` is never exhausted. -/
def moveLineLoop : ℕ → List ℕ → ℕ → List ℕ
  | 0, ml, _ => ml
  | fuel + 1, ml, i =>
    if i < 3 then
      let j := nextNonzero ml (i + 1)
      if j = 4 then ml
      else if ml.getD i 0 = 0 then
        moveLineLoop fuel ((ml.set i (ml.getD j 0)).set j 0) i
      else if ml.getD i 0 = ml.getD j 0 then
        let mi := ml.getD i 0
        moveLineLoop fuel ((ml.set i (if mi ≠ 0xf then mi + 1 else mi)).set j 0) (i + 1)
      else
        moveLineLoop fuel ml (i + 1)
    else ml

/-- Slide-and-merge one line of four nibbles to the left. -/
def moveLine (l : List ℕ) : List ℕ := moveLineLoop 8 l 0

/-- Repack four nibbles into a 16-bit row (the `resultRow` expression of the
table loop). -/
def packRow (l : List ℕ) : ℕ :=
  l.getD 0 0 ||| (l.getD 1 0 <<< 4) ||| (l.getD 2 0 <<< 8) ||| (l.getD 3 0 <<< 12)

/-- The `resultRow` value computed for index `row` in the table loop: the
row after sliding left. -/
def resultRow (row : ℕ) : ℕ := packRow (moveLine (line row))

/-- Contents of `rowLeftTable`: at index `row` the loop stores
`row ^ resultRow`. -/
def rowLeftTable (row : ℕ) : ℕ := row ^^^ resultRow row

/-- Contents of `rowRightTable`.  The loop writes index `revRow :=
reverseRow row` with `revRow ^ reverseRow (resultRow row)`; since
`reverseRow` is an involution on 16-bit values (proved below), the entry at
index `q` is `q ^^^ reverseRow (resultRow (reverseRow q))`. -/
def rowRightTable (q : ℕ) : ℕ := q ^^^ reverseRow (resultRow (reverseRow q))

/-- Contents of `colUpTable`: at index `row` the loop stores
`unpackCol row ^ unpackCol (resultRow row)`. -/
def colUpTable (row : ℕ) : ℕ := unpackCol row ^^^ unpackCol (resultRow row)

/-- Contents of `colDownTable`: the loop writes index `reverseRow row` with
`unpackCol (reverseRow row) ^ unpackCol (reverseRow (resultRow row))`; by
the same involution argument the entry at `q` is below. -/
def colDownTable (q : ℕ) : ℕ :=
  unpackCol q ^^^ unpackCol (reverseRow (resultRow (reverseRow q)))

/-- `executeMove0` (up). -/
def executeMove0 (board : ℕ) : ℕ :=
  let t := transpose board
  board ^^^ (colUpTable ((t >>> 0) &&& ROW_MASK) <<< 0)
    ^^^ (colUpTable ((t >>> 16) &&& ROW_MASK) <<< 4)
    ^^^ (colUpTable ((t >>> 32) &&& ROW_MASK) <<< 8)
    ^^^ (colUpTable ((t >>> 48) &&& ROW_MASK) <<< 12)

/-- `executeMove1` (down). -/
def executeMove1 (board : ℕ) : ℕ :=
  let t := transpose board
  board ^^^ (colDownTable ((t >>> 0) &&& ROW_MASK) <<< 0)
    ^^^ (colDownTable ((t >>> 16) &&& ROW_MASK) <<< 4)
    ^^^ (colDownTable ((t >>> 32) &&& ROW_MASK) <<< 8)
    ^^^ (colDownTable ((t >>> 48) &&& ROW_MASK) <<< 12)

/-- `executeMove2` (left). -/
def executeMove2 (board : ℕ) : ℕ :=
  board ^^^ (rowLeftTable ((board >>> 0) &&& ROW_MASK) <<< 0)
    ^^^ (rowLeftTable ((board >>> 16) &&& ROW_MASK) <<< 16)
    ^^^ (rowLeftTable ((board >>> 32) &&& ROW_MASK) <<< 32)
    ^^^ (rowLeftTable ((board >>> 48) &&& ROW_MASK) <<< 48)

/-- `executeMove3` (right). -/
def executeMove3 (board : ℕ) : ℕ :=
  board ^^^ (rowRightTable ((board >>> 0) &&& ROW_MASK) <<< 0)
    ^^^ (rowRightTable ((board >>> 16) &&& ROW_MASK) <<< 16)
    ^^^ (rowRightTable ((board >>> 32) &&& ROW_MASK) <<< 32)
    ^^^ (rowRightTable ((board >>> 48) &&& ROW_MASK) <<< 48)

/-- `executeMove`: dispatch on the move index, identity for indices
outside `0..3`. -/
def executeMove (move : ℕ) (board : ℕ) : ℕ :=
  match move with
  | 0 => executeMove0 board
  | 1 => executeMove1 board
  | 2 => executeMove2 board
  | 3 => executeMove3 board
  | _ => board

/-- `countEmpty`: branchless count of zero nibbles.  `~x & 0x1111...1` of
the source is rendered as `(x &&& 0x1111...1) ^^^ 0x1111...1`, the same
function of the bits of `x`. -/
def countEmpty (board : ℕ) : ℕ :=
  let x1 := board ||| ((board >>> 2) &&& 0x3333333333333333)
  let x2 := x1 ||| (x1 >>> 1)
  let x3 := (x2 &&& 0x1111111111111111) ^^^ 0x1111111111111111
  let x4 := x3 + (x3 >>> 32)
  let x5 := x4 + (x4 >>> 16)
  let x6 := x5 + (x5 >>> 8)
  let x7 := x6 + (x6 >>> 4)
  x7 &&& 0xf

/-- The `while (tmp) { bitset |= 1 << (tmp & 0xf); tmp >>= 4 }` loop of
`countDistinctTiles`.  A board has 16 nibbles, so 16 iterations always
drain `tmp`; the fuel keeps the recursion structural. -/
def distinctBitsetAux : ℕ → ℕ → ℕ → ℕ
  | 0, _, bitset => bitset
  | fuel + 1, tmp, bitset =>
    if tmp = 0 then bitset
    else distinctBitsetAux fuel (tmp >>> 4) (bitset ||| (1 <<< (tmp &&& 0xf)))

/-- The `while (bitset) { bitset &= bitset - 1; count += 1 }` popcount loop;
the bitset has at most 16 bits, so 16 iterations drain it. -/
def popcountAux : ℕ → ℕ → ℕ → ℕ
  | 0, _, count => count
  | fuel + 1, bitset, count =>
    if bitset = 0 then count
    else popcountAux fuel (bitset &&& (bitset - 1)) (count + 1)

/-- `countDistinctTiles`: number of distinct nonzero ranks on the board. -/
def countDistinctTiles (board : ℕ) : ℕ :=
  popcountAux 16 (distinctBitsetAux 16 board 0 >>> 1) 0

/-- Integer `log2`, truncating: `Math.log2(value) | 0` of the source for
power-of-two tile values below `2^64`. -/
def log2iAux : ℕ → ℕ → ℕ
  | 0, _ => 0
  | fuel + 1, n => if 2 ≤ n then log2iAux fuel (n / 2) + 1 else 0

/-- Floor base-2 logarithm used by the board codec. -/
def log2i (n : ℕ) : ℕ := log2iAux 64 n

/-- `tilesToBoard`: fold the tile list into a packed board with
`board |= rank << (4 * (row * 4 + col))`.  Note the accumulation is a
bitwise or. -/
def tilesToBoard (tiles : List Tile) : ℕ :=
  tiles.foldl
    (fun board t => board ||| (log2i t.value <<< (4 * (t.row * 4 + t.col)))) 0

/-- Nibble `p` (cell `row = p / 4`, `col = p % 4`) of a packed board. -/
def nibbleAt (board p : ℕ) : ℕ := (board >>> (4 * p)) &&& 0xf

/-- `scoreHelper`: sum a per-row table over the four 16-bit rows. -/
def scoreHelper (T : ℕ → ℚ) (board : ℕ) : ℚ :=
  T ((board >>> 0) &&& ROW_MASK) + T ((board >>> 16) &&& ROW_MASK) +
    T ((board >>> 32) &&& ROW_MASK) + T ((board >>> 48) &&& ROW_MASK)

/-- `scoreHeurBoard`: static heuristic of a board, rows plus transposed
rows, parameterised by the heuristic row table `T` (`heurScoreTable` holds
`Float` values of transcendental expressions; every claim below is proved
for all `T`). -/
def scoreHeurBoard (T : ℕ → ℚ) (board : ℕ) : ℚ :=
  scoreHelper T board + scoreHelper T (transpose board)

/-- `CPROB_THRESH_BASE = 0.0001`. -/
def CPROB_THRESH_BASE : ℚ := mkRat 1 10000

/-- `CACHE_DEPTH_LIMIT = 15`. -/
def CACHE_DEPTH_LIMIT : ℕ := 15

/-- The mutable search state of one `getBestMove` invocation.  The
`timeLimitMs` and `startTime` fields of the source are written once at
state creation and read only by `timeExceeded`, so the embedding passes
them as separate parameters; `clock` counts the `now()` calls made so far
and indexes the wall-clock oracle. -/
structure EvalState where
  transTable : List (ℕ × ℕ × ℚ)
  maxdepth : ℕ
  curdepth : ℕ
  cachehits : ℕ
  movesEvaled : ℕ
  depthLimit : ℕ
  timedOut : Bool
  clock : ℕ
deriving DecidableEq

/-- `Map.get` on the transposition table: first entry with the given key. -/
def mapGet (m : List (ℕ × ℕ × ℚ)) (k : ℕ) : Option (ℕ × ℚ) :=
  match m with
  | [] => none
  | (k', d, h) :: rest => if k' = k then some (d, h) else mapGet rest k

/-- `Map.set`: replace the entry with the given key, or append a new one. -/
def mapSet (m : List (ℕ × ℕ × ℚ)) (k : ℕ) (v : ℕ × ℚ) : List (ℕ × ℕ × ℚ) :=
  match m with
  | [] => [(k, v.1, v.2)]
  | (k', d, h) :: rest =>
    if k' = k then (k, v.1, v.2) :: rest else (k', d, h) :: mapSet rest k v

/-- JS truthiness of the optional `timeLimitMs` (`!state.timeLimitMs`):
`undefined` and `0` are falsy. -/
def timeLimitArmed : Option ℚ → Bool
  | none => false
  | some q => !(q == 0)

/-- `timeExceeded`: with no armed budget or no recorded start, report
`false`; otherwise consult the clock oracle once and compare.  Returns the
flag together with the state (whose `clock`, and possibly `timedOut`,
advanced). -/
def timeExceeded (τ : ℕ → ℚ) (tl start : Option ℚ) (s : EvalState) :
    Bool × EvalState :=
  if timeLimitArmed tl = false then (false, s)
  else
    match start, tl with
    | none, _ => (false, s)
    | some _, none => (false, s)
    | some st, some lim =>
      let t := τ s.clock
      let s1 := { s with clock := s.clock + 1 }
      if t - st > lim then (true, { s1 with timedOut := true }) else (false, s1)

/-- Descriptor of one call in the mutually recursive search: a chance node
(`scoreTilechooseNode`), its spawn loop, an agent node (`scoreMoveNode`),
or its move loop.  Bundling the four shapes lets the recursion be
structural on a fuel counter, so that the search evaluates by kernel
reduction. -/
inductive SearchCall where
  | chance (s : EvalState) (board : ℕ) (cprob : ℚ) : SearchCall
  | spawn (s : EvalState) (board : ℕ) (prob : ℚ) (idxs : List ℕ) (acc : ℚ) : SearchCall
  | agent (s : EvalState) (board : ℕ) (cprob : ℚ) : SearchCall
  | agentLoop (s : EvalState) (board : ℕ) (cprob : ℚ) (moves : List ℕ) (best : ℚ) : SearchCall

/-- Collapse the early-return marker of the spawn loop. -/
def getOut (r : Sum (ℚ × EvalState) (ℚ × EvalState)) : ℚ × EvalState :=
  match r with
  | Sum.inl out => out
  | Sum.inr out => out

/-- The search recursion.  `Sum.inl` marks the spawn loop's early
`return scoreHeurBoard(board)` on a tripped clock; every other result is
`Sum.inr`.  Each recursive call consumes one unit of fuel (the source
recursion terminates because the depth approaches the depth limit; for
fuel at least four times the recursion depth of the source run the
embedding computes the same result, and every claim below is proved for
all fuel values). -/
def searchGo (τ T : ℕ → ℚ) (tl start : Option ℚ) :
    ℕ → SearchCall → Sum (ℚ × EvalState) (ℚ × EvalState)
  | 0, c =>
    match c with
    | SearchCall.chance s board _ => Sum.inr (scoreHeurBoard T board, s)
    | SearchCall.spawn s _ _ _ acc => Sum.inr (acc, s)
    | SearchCall.agent s board _ => Sum.inr (scoreHeurBoard T board, s)
    | SearchCall.agentLoop s _ _ _ best => Sum.inr (best, s)
  | fuel + 1, c =>
    match c with
    | SearchCall.chance s board cprob =>
      let te := timeExceeded τ tl start s
      if te.1 then Sum.inr (scoreHeurBoard T board, te.2)
      else
        let s1 := te.2
        if cprob < CPROB_THRESH_BASE ∨ s1.depthLimit ≤ s1.curdepth then
          Sum.inr (scoreHeurBoard T board,
            { s1 with maxdepth := max s1.curdepth s1.maxdepth })
        else
          let cacheStep : Option (ℚ × EvalState) :=
            if s1.curdepth < CACHE_DEPTH_LIMIT then
              match mapGet s1.transTable board with
              | some (d, h) =>
                if d ≤ s1.curdepth then
                  some (h, { s1 with cachehits := s1.cachehits + 1 })
                else none
              | none => none
            else none
          match cacheStep with
          | some out => Sum.inr out
          | none =>
            let numOpen := countEmpty board
            if numOpen = 0 then Sum.inr (scoreHeurBoard T board, s1)
            else
              let prob := cprob / (numOpen : ℚ)
              match searchGo τ T tl start fuel
                  (SearchCall.spawn s1 board prob (List.range 16) 0) with
              | Sum.inl early => Sum.inr early
              | Sum.inr (res, s2) =>
                let res2 := res / (numOpen : ℚ)
                if s2.curdepth < CACHE_DEPTH_LIMIT then
                  Sum.inr (res2, { s2 with
                    transTable := mapSet s2.transTable board (s2.curdepth, res2) })
                else Sum.inr (res2, s2)
    | SearchCall.spawn s board prob idxs acc =>
      match idxs with
      | [] => Sum.inr (acc, s)
      | index :: rest =>
        let te := timeExceeded τ tl start s
        if te.1 then Sum.inl (scoreHeurBoard T board, te.2)
        else
          let s1 := te.2
          if (board >>> (4 * index)) &&& 0xf = 0 then
            let tile : ℕ := 1 <<< (4 * index)
            let r1 := getOut (searchGo τ T tl start fuel
              (SearchCall.agent s1 (board ||| tile) (prob * mkRat 9 10)))
            let r2 := getOut (searchGo τ T tl start fuel
              (SearchCall.agent r1.2 (board ||| (tile <<< 1)) (prob * mkRat 1 10)))
            searchGo τ T tl start fuel (SearchCall.spawn r2.2 board prob rest
              (acc + r1.1 * mkRat 9 10 + r2.1 * mkRat 1 10))
          else
            searchGo τ T tl start fuel (SearchCall.spawn s1 board prob rest acc)
    | SearchCall.agent s board cprob =>
      let te := timeExceeded τ tl start s
      if te.1 then Sum.inr (scoreHeurBoard T board, te.2)
      else
        let s1 := { te.2 with curdepth := te.2.curdepth + 1 }
        let r := getOut (searchGo τ T tl start fuel
          (SearchCall.agentLoop s1 board cprob [0, 1, 2, 3] 0))
        Sum.inr (r.1, { r.2 with curdepth := r.2.curdepth - 1 })
    | SearchCall.agentLoop s board cprob moves best =>
      match moves with
      | [] => Sum.inr (best, s)
      | move :: rest =>
        let te := timeExceeded τ tl start s
        if te.1 then Sum.inr (best, te.2)
        else
          let s1 := te.2
          let newboard := executeMove move board
          let s2 := { s1 with movesEvaled := s1.movesEvaled + 1 }
          if newboard ≠ board then
            let r := getOut (searchGo τ T tl start fuel
              (SearchCall.chance s2 newboard cprob))
            let best2 := if r.1 > best then r.1 else best
            searchGo τ T tl start fuel
              (SearchCall.agentLoop r.2 board cprob rest best2)
          else
            searchGo τ T tl start fuel
              (SearchCall.agentLoop s2 board cprob rest best)

/-- `scoreTilechooseNode` (chance node) of the source, as the chance entry
point of the bundled recursion. -/
def scoreTilechooseNode (τ T : ℕ → ℚ) (tl start : Option ℚ) (fuel : ℕ)
    (s : EvalState) (board : ℕ) (cprob : ℚ) : ℚ × EvalState :=
  getOut (searchGo τ T tl start fuel (SearchCall.chance s board cprob))

/-- `scoreMoveNode` (agent node) of the source. -/
def scoreMoveNode (τ T : ℕ → ℚ) (tl start : Option ℚ) (fuel : ℕ)
    (s : EvalState) (board : ℕ) (cprob : ℚ) : ℚ × EvalState :=
  getOut (searchGo τ T tl start fuel (SearchCall.agent s board cprob))

/-- `scoreToplevelMove`: `0` for a no-op direction (without touching the
clock), otherwise the chance-node score of the result plus `1e-6`. -/
def scoreToplevelMove (τ T : ℕ → ℚ) (tl start : Option ℚ) (fuel : ℕ)
    (s : EvalState) (board move : ℕ) : ℚ × EvalState :=
  let newboard := executeMove move board
  if newboard = board then (0, s)
  else
    let r := scoreTilechooseNode τ T tl start fuel s newboard 1
    (r.1 + mkRat 1 1000000, r.2)

/-- `moveIndexToDirection`, with the source's `default: return "left"`. -/
def moveIndexToDirection (move : ℕ) : Direction :=
  match move with
  | 0 => Direction.up
  | 1 => Direction.down
  | 2 => Direction.left
  | 3 => Direction.right
  | _ => Direction.left

/-- The root loop of `getBestMove`: evaluate the four directions in order,
keep the strictly best score, and stop early after an iteration that
tripped the deadline. -/
def rootScan (τ T : ℕ → ℚ) (tl start : Option ℚ) (fuel : ℕ) (board : ℕ) :
    List ℕ → EvalState → Int → ℚ → Int × ℚ × EvalState
  | [], s, bestMove, bestScore => (bestMove, bestScore, s)
  | move :: rest, s, bestMove, bestScore =>
    let r := scoreToplevelMove τ T tl start fuel s board move
    let next :=
      if r.1 > bestScore then ((move : Int), r.1) else (bestMove, bestScore)
    if r.2.timedOut then (next.1, next.2, r.2)
    else rootScan τ T tl start fuel board rest r.2 next.1 next.2

/-- The `for (move of [1, 2, 3, 0])` fallback scan: first direction whose
move changes the board. -/
def fallbackScan (board : ℕ) : Option ℕ :=
  [1, 2, 3, 0].find? (fun move => executeMove move board != board)

/-- The fresh state built at the top of `getBestMove`.  `startTime` is set
only when the budget is truthy, consuming one `now()` call. -/
def initState (tl : Option ℚ) (board : ℕ) : EvalState :=
  { transTable := []
    maxdepth := 0
    curdepth := 0
    cachehits := 0
    movesEvaled := 0
    depthLimit := max 3 (countDistinctTiles board - 2)
    timedOut := false
    clock := if timeLimitArmed tl then 1 else 0 }

/-- The `startTime` value recorded by `getBestMove`. -/
def initStart (τ : ℕ → ℚ) (tl : Option ℚ) : Option ℚ :=
  if timeLimitArmed tl then some (τ 0) else none

/-- `getBestMove`: the top-level driver. -/
def getBestMove (τ T : ℕ → ℚ) (fuel : ℕ) (tiles : List Tile)
    (tl : Option ℚ) : Option Direction :=
  if tiles = [] then none
  else
    let board := tilesToBoard tiles
    let s0 := initState tl board
    let start := initStart τ tl
    let r := rootScan τ T tl start fuel board [0, 1, 2, 3] s0 (-1) 0
    if r.1 ≥ 0 then some (moveIndexToDirection r.1.toNat)
    else
      match fallbackScan board with
      | some move => some (moveIndexToDirection move)
      | none => none

/-- `getHybridMove` delegates to `getBestMove`. -/
def getHybridMove (τ T : ℕ → ℚ) (fuel : ℕ) (tiles : List Tile)
    (tl : Option ℚ) : Option Direction :=
  getBestMove τ T fuel tiles tl

/-- Nibble-transposition index map: bit `4*i+k` of `transpose x` is bit
`4*(tperm i)+k` of `x`. -/
def tperm (i : ℕ) : ℕ := 4 * (i % 4) + i / 4

/-- A line of four nibbles on which the slide-left loop is a no-op: the
nonzero nibbles form a prefix, and no two adjacent nonzero nibbles are
equal.  This predicate characterises the fixed points of `resultRow`
(proved below). -/
def noMoveLine (l : List ℕ) : Prop :=
  (∀ i, i < 3 → (l.getD i 0 = 0 → l.getD (i + 1) 0 = 0)) ∧
    (∀ i, i < 3 → (l.getD i 0 ≠ 0 → l.getD i 0 ≠ l.getD (i + 1) 0))

/-- Indicator of a nonzero cell value. -/
def nz (x : ℕ) : ℕ := if x = 0 then 0 else 1

/-- Number of nonzero entries among the four cells of a line. -/
def sigma4 (l : List ℕ) : ℕ :=
  nz (l.getD 0 0) + nz (l.getD 1 0) + nz (l.getD 2 0) + nz (l.getD 3 0)

/-- `noMoveLine` restricted to indices `≥ i`: the part of the line the
slide loop still has to examine when its counter is at `i`. -/
def noMoveFrom (ml : List ℕ) (i : ℕ) : Prop :=
  ∀ k, i ≤ k → k < 3 →
    (ml.getD k 0 = 0 → ml.getD (k + 1) 0 = 0) ∧
      (ml.getD k 0 ≠ 0 → ml.getD k 0 ≠ ml.getD (k + 1) 0)

/-- The 16-bit row `k` (counted from the low end) of a packed board. -/
def rowAt (x k : ℕ) : ℕ := (x >>> (16 * k)) &&& ROW_MASK

/-- Line `k` of a board read in the sliding orientation of move `d`:
up/down read the columns via the transpose, and down/right read their
lines reversed, matching the reverse-indexed move tables. -/
def orientedLine (d board k : ℕ) : List ℕ :=
  match d with
  | 0 => line (rowAt (transpose board) k)
  | 1 => line (reverseRow (rowAt (transpose board) k))
  | 2 => line (rowAt board k)
  | _ => line (reverseRow (rowAt board k))



/-- The search state just before the root loop evaluates move `k`
(`k ≤ 4`): the initial state threaded through the preceding
`scoreToplevelMove` calls. -/
def rootState (τ T : ℕ → ℚ) (tl : Option ℚ) (fuel : ℕ) (tiles : List Tile) :
    ℕ → EvalState
  | 0 => initState tl (tilesToBoard tiles)
  | k + 1 =>
    (scoreToplevelMove τ T tl (initStart τ tl) fuel
      (rootState τ T tl fuel tiles k) (tilesToBoard tiles) k).2

/-- The root score of direction `k` as computed in sequence by the root
loop of `getBestMove`. -/
def rootScore (τ T : ℕ → ℚ) (tl : Option ℚ) (fuel : ℕ) (tiles : List Tile)
    (k : ℕ) : ℚ :=
  (scoreToplevelMove τ T tl (initStart τ tl) fuel
    (rootState τ T tl fuel tiles k) (tilesToBoard tiles) k).1




/-- The state a search call starts from. -/
def callState : SearchCall → EvalState
  | SearchCall.chance s _ _ => s
  | SearchCall.spawn s _ _ _ _ => s
  | SearchCall.agent s _ _ => s
  | SearchCall.agentLoop s _ _ _ _ => s




/-- The low `n` nibbles of a board packed back into a word: used to state
that a packed board is the bitwise or of its shifted nibbles. -/
def orPack (f : ℕ → ℕ) : ℕ → ℕ
  | 0 => 0
  | n + 1 => orPack f n ||| (f n <<< (4 * n))


/-- A search state used to exercise the cache-hit path: depth 0, a cached
entry for board 5 stored at depth 0 with value 7. -/
def cacheState : EvalState :=
  ⟨[(5, 0, 7)], 0, 0, 0, 0, 3, false, 0⟩


/-- A constant wall-clock oracle used to instantiate theorems. -/
def constClock : ℕ → ℚ := fun _ => 0

/-- A constant heuristic row table used to instantiate theorems. -/
def constTable : ℕ → ℚ := fun _ => 0

/-- A terminal position: a full checkerboard of ranks 1 and 2; no
direction changes the packed board. -/
def termTiles : List Tile :=
  [⟨2, 0, 0⟩, ⟨4, 0, 1⟩, ⟨2, 0, 2⟩, ⟨4, 0, 3⟩,
    ⟨4, 1, 0⟩, ⟨2, 1, 1⟩, ⟨4, 1, 2⟩, ⟨2, 1, 3⟩,
    ⟨2, 2, 0⟩, ⟨4, 2, 1⟩, ⟨2, 2, 2⟩, ⟨4, 2, 3⟩,
    ⟨4, 3, 0⟩, ⟨2, 3, 1⟩, ⟨4, 3, 2⟩, ⟨2, 3, 3⟩]

/-- A position on which exactly one direction (left, move index 2) changes
the board: every row is right-justified with distinct adjacent ranks and
every column is full with distinct adjacent ranks. -/
def uniqTiles : List Tile :=
  [⟨2, 0, 1⟩, ⟨4, 0, 2⟩, ⟨8, 0, 3⟩,
    ⟨4, 1, 1⟩, ⟨8, 1, 2⟩, ⟨2, 1, 3⟩,
    ⟨8, 2, 1⟩, ⟨2, 2, 2⟩, ⟨4, 2, 3⟩,
    ⟨2, 3, 1⟩, ⟨4, 3, 2⟩, ⟨8, 3, 3⟩]



instance : Std.Associative (α := Bool) (· && ·) := ⟨Bool.and_assoc⟩

instance : Std.Associative (α := Bool) (· || ·) := ⟨Bool.or_assoc⟩

instance xorAssocNat : Std.Associative (α := ℕ) (· ^^^ ·) := ⟨Nat.xor_assoc⟩

instance xorCommNat : Std.Commutative (α := ℕ) (· ^^^ ·) := ⟨Nat.xor_comm⟩


/-! ## Generic bitwise toolkit -/

theorem lor_land_distrib (x y z : ℕ) : (x ||| y) &&& z = (x &&& z) ||| (y &&& z) := by
  apply Nat.eq_of_testBit_eq
  intro i
  simp only [Nat.testBit_and, Nat.testBit_or, Bool.and_or_distrib_right]

theorem shiftLeft_lor (x y n : ℕ) : (x ||| y) <<< n = (x <<< n) ||| (y <<< n) := by
  apply Nat.eq_of_testBit_eq
  intro i
  simp only [Nat.testBit_shiftLeft, Nat.testBit_or, Bool.and_or_distrib_left]

theorem shiftRight_lor (x y n : ℕ) : (x ||| y) >>> n = (x >>> n) ||| (y >>> n) := by
  apply Nat.eq_of_testBit_eq
  intro i
  simp only [Nat.testBit_shiftRight, Nat.testBit_or]

theorem shiftLeft_xor (x y n : ℕ) : (x ^^^ y) <<< n = (x <<< n) ^^^ (y <<< n) := by
  apply Nat.eq_of_testBit_eq
  intro i
  simp only [Nat.testBit_shiftLeft, Nat.testBit_xor]
  cases h : decide (i ≥ n) <;> simp

theorem land_shiftLeft_eq_zero {a n : ℕ} (b : ℕ) (ha : a < 2 ^ n) (m : ℕ)
    (hnm : n ≤ m) : (b <<< m) &&& a = 0 := by
  apply Nat.eq_of_testBit_eq
  intro i
  simp only [Nat.testBit_and, Nat.testBit_shiftLeft, Nat.zero_testBit]
  rcases Nat.lt_or_ge i m with h | h
  · simp [Nat.not_le.mpr h]
  · have : a < 2 ^ i := lt_of_lt_of_le ha (Nat.pow_le_pow_right (by norm_num) (le_trans hnm h))
    simp [Nat.testBit_lt_two_pow this]

theorem land_eq_zero_comm {a b : ℕ} (h : a &&& b = 0) : b &&& a = 0 := by
  rwa [Nat.land_comm]

theorem lor_eq_xor {a b : ℕ} (h : a &&& b = 0) : a ||| b = a ^^^ b := by
  apply Nat.eq_of_testBit_eq
  intro i
  have hb := congrArg (fun t => Nat.testBit t i) h
  simp only [Nat.testBit_and, Nat.zero_testBit, Bool.and_eq_false_iff] at hb
  simp only [Nat.testBit_or, Nat.testBit_xor]
  rcases hb with hb | hb <;> simp [hb]

theorem lor_eq_add {a b : ℕ} (h : a &&& b = 0) : a ||| b = a + b := by
  induction a using Nat.binaryRec generalizing b with
  | z => simp
  | f a0 a ih =>
    rw [← Nat.bit_testBit_zero_shiftRight_one b] at h ⊢
    rw [Nat.land_bit, Nat.bit_eq_zero_iff] at h
    rw [Nat.lor_bit, Nat.bit_val, Nat.bit_val, Nat.bit_val, ih h.1]
    cases a0 <;> cases hb : Nat.testBit b 0 <;>
      simp [hb, Bool.toNat] at h ⊢ <;> omega

theorem lor_lt_two_pow {a b n : ℕ} (ha : a < 2 ^ n) (hb : b < 2 ^ n) :
    a ||| b < 2 ^ n := by
  have h1 : (a ||| b) &&& (2 ^ n - 1) = a ||| b := by
    rw [lor_land_distrib, Nat.and_pow_two_sub_one_of_lt_two_pow ha,
      Nat.and_pow_two_sub_one_of_lt_two_pow hb]
  rw [Nat.and_pow_two_sub_one_eq_mod] at h1
  omega

theorem lor_shiftLeft_eq_add {x : ℕ} (y : ℕ) {n : ℕ} (hx : x < 2 ^ n) :
    x ||| (y <<< n) = x + y * 2 ^ n := by
  rw [Nat.lor_comm, lor_eq_add (land_shiftLeft_eq_zero y hx n le_rfl),
    Nat.shiftLeft_eq, Nat.add_comm]

theorem land_15_eq_mod (x : ℕ) : x &&& 15 = x % 16 := by
  have := Nat.and_pow_two_sub_one_eq_mod x 4
  norm_num at this
  exact this

theorem land_ffff_eq_mod (x : ℕ) : x &&& 65535 = x % 65536 := by
  have := Nat.and_pow_two_sub_one_eq_mod x 16
  norm_num at this
  exact this


theorem and_mask_shift (x m k : ℕ) : x &&& (m <<< k) = ((x >>> k) &&& m) <<< k := by
  apply Nat.eq_of_testBit_eq
  intro i
  simp only [Nat.testBit_and, Nat.testBit_shiftLeft, Nat.testBit_shiftRight]
  rcases Nat.lt_or_ge i k with h | h
  · simp [Nat.not_le.mpr h]
  · have : k + (i - k) = i := by omega
    simp [Nat.le_of_lt, h, this]

/-! ## Lines, packing, and the slide loop -/

theorem getD_le_of_forall {l : List ℕ} (h : ∀ x ∈ l, x ≤ 15) (i : ℕ) :
    l.getD i 0 ≤ 15 := by
  rw [List.getD_eq_getElem?_getD]
  cases hi : l[i]? with
  | none => simp
  | some v => simpa using h v (List.getElem?_mem hi)

theorem moveLineLoop_le (f : ℕ) (ml : List ℕ) (i : ℕ)
    (h : ∀ x ∈ ml, x ≤ 15) : ∀ x ∈ moveLineLoop f ml i, x ≤ 15 := by
  induction f generalizing ml i with
  | zero => simpa [moveLineLoop] using h
  | succ f ih =>
    have hset : ∀ (v : ℕ) (a b : ℕ), v ≤ 15 →
        ∀ x ∈ (ml.set a v).set b 0, x ≤ 15 := by
      intro v a b hv x hx
      rcases List.mem_or_eq_of_mem_set hx with hx | hx
      · rcases List.mem_or_eq_of_mem_set hx with hx | hx
        · exact h x hx
        · omega
      · omega
    simp only [moveLineLoop]
    split
    · split
      · exact h
      · split
        · exact ih _ _ (hset _ _ _ (getD_le_of_forall h _))
        · split
          · apply ih
            apply hset
            have h1 := getD_le_of_forall h i
            split <;> omega
          · exact ih ml (i + 1) h
    · exact h

theorem moveLine_le (l : List ℕ) (h : ∀ x ∈ l, x ≤ 15) :
    ∀ x ∈ moveLine l, x ≤ 15 := moveLineLoop_le 8 l 0 h

theorem line_le (r : ℕ) : ∀ x ∈ line r, x ≤ 15 := by
  intro x hx
  simp only [line, List.mem_cons, List.not_mem_nil, or_false] at hx
  rcases hx with h | h | h | h <;> subst h <;> rw [land_15_eq_mod] <;> omega

theorem packRow_eq_add (l : List ℕ) (h : ∀ x ∈ l, x ≤ 15) :
    packRow l = l.getD 0 0 + l.getD 1 0 * 16 + l.getD 2 0 * 256 +
      l.getD 3 0 * 4096 := by
  have h0 := getD_le_of_forall h 0
  have h1 := getD_le_of_forall h 1
  have h2 := getD_le_of_forall h 2
  have h3 := getD_le_of_forall h 3
  unfold packRow
  rw [lor_shiftLeft_eq_add _ (show l.getD 0 0 < 2 ^ 4 by omega),
    lor_shiftLeft_eq_add _ (show _ < 2 ^ 8 by omega),
    lor_shiftLeft_eq_add _ (show _ < 2 ^ 12 by omega)]
  norm_num

theorem packRow_lt (l : List ℕ) (h : ∀ x ∈ l, x ≤ 15) : packRow l < 65536 := by
  have h0 := getD_le_of_forall h 0
  have h1 := getD_le_of_forall h 1
  have h2 := getD_le_of_forall h 2
  have h3 := getD_le_of_forall h 3
  rw [packRow_eq_add l h]
  omega

theorem resultRow_lt (r : ℕ) : resultRow r < 65536 :=
  packRow_lt _ (moveLine_le _ (line_le r))

theorem line_getD (r : ℕ) :
    (line r).getD 0 0 = r % 16 ∧ (line r).getD 1 0 = r / 16 % 16 ∧
      (line r).getD 2 0 = r / 256 % 16 ∧ (line r).getD 3 0 = r / 4096 % 16 := by
  simp only [line, List.getD_cons_zero, List.getD_cons_succ, land_15_eq_mod,
    Nat.shiftRight_eq_div_pow]
  norm_num

theorem packRow_line (r : ℕ) (h : r < 65536) : packRow (line r) = r := by
  obtain ⟨e0, e1, e2, e3⟩ := line_getD r
  rw [packRow_eq_add _ (line_le r), e0, e1, e2, e3]
  omega

/-! ## reverseRow -/

theorem reverseRow_eq (r : ℕ) (h : r < 65536) :
    reverseRow r =
      r / 4096 + (r / 256 % 16) * 16 + (r / 16 % 16) * 256 + (r % 16) * 4096 := by
  have hB : (r >>> 4) &&& 0x00f0 = ((r >>> 8) &&& 15) <<< 4 := by
    rw [show (0x00f0 : ℕ) = 15 <<< 4 from by decide, and_mask_shift,
      ← Nat.shiftRight_add]
  have hC : (r <<< 4) &&& 0x0f00 = ((r >>> 4) &&& 15) <<< 8 := by
    rw [show (0x0f00 : ℕ) = 15 <<< 8 from by decide, and_mask_shift]
    have : (r <<< 4) >>> 8 = r >>> 4 := by
      simp only [Nat.shiftLeft_eq, Nat.shiftRight_eq_div_pow]
      omega
    rw [this]
  have h1 : r >>> 12 < 2 ^ 4 := by
    simp only [Nat.shiftRight_eq_div_pow]
    omega
  unfold reverseRow
  rw [hB, hC, lor_shiftLeft_eq_add ((r >>> 8) &&& 15) h1]
  have h2 : r >>> 12 + ((r >>> 8) &&& 15) * 2 ^ 4 < 2 ^ 8 := by
    simp only [Nat.shiftRight_eq_div_pow, land_15_eq_mod]
    omega
  rw [lor_shiftLeft_eq_add ((r >>> 4) &&& 15) h2]
  have h3 : r >>> 12 + ((r >>> 8) &&& 15) * 2 ^ 4 + ((r >>> 4) &&& 15) * 2 ^ 8 <
      2 ^ 12 := by
    simp only [Nat.shiftRight_eq_div_pow, land_15_eq_mod]
    omega
  rw [lor_shiftLeft_eq_add r h3, land_ffff_eq_mod]
  simp only [Nat.shiftRight_eq_div_pow, land_15_eq_mod]
  norm_num
  omega

theorem reverseRow_lt (r : ℕ) : reverseRow r < 65536 := by
  unfold reverseRow
  rw [land_ffff_eq_mod]
  omega

theorem reverseRow_involutive (r : ℕ) (h : r < 65536) :
    reverseRow (reverseRow r) = r := by
  have d1 : r / 16 / 16 = r / 256 := by
    rw [Nat.div_div_eq_div_mul]
  have d2 : r / 256 / 16 = r / 4096 := by
    rw [Nat.div_div_eq_div_mul]
  set X := reverseRow r with hX
  rw [reverseRow_eq r h] at hX
  rw [reverseRow_eq X (by omega)]
  have e1 : X / 16 / 16 = X / 256 := by
    rw [Nat.div_div_eq_div_mul]
  have e2 : X / 256 / 16 = X / 4096 := by
    rw [Nat.div_div_eq_div_mul]
  obtain ⟨A, B, C, D, eA, eB, eC, eD⟩ :
      ∃ A B C D : ℕ, A = r % 16 ∧ B = r / 16 % 16 ∧ C = r / 256 % 16 ∧
        D = r / 4096 := ⟨_, _, _, _, rfl, rfl, rfl, rfl⟩
  have hr : r = A + 16 * B + 256 * C + 4096 * D := by omega
  have hX2 : X = D + 16 * C + 256 * B + 4096 * A := by omega
  have hA : A ≤ 15 := by omega
  have hB : B ≤ 15 := by omega
  have hC : C ≤ 15 := by omega
  have hD : D ≤ 15 := by omega
  have q1 : X / 4096 = A := by omega
  have q2 : X % 16 = D := by omega
  have q3 : X / 16 % 16 = C := by omega
  have q4 : X / 256 % 16 = B := by omega
  rw [q1, q2, q3, q4]
  omega


theorem shiftLeft_shiftRight_ge (a m n : ℕ) (h : m ≤ n) :
    (a <<< m) >>> n = a >>> (n - m) := by
  apply Nat.eq_of_testBit_eq
  intro i
  simp only [Nat.testBit_shiftRight, Nat.testBit_shiftLeft]
  have h1 : m ≤ n + i := by omega
  have h2 : n + i - m = n - m + i := by omega
  simp [h1, h2]

theorem shiftLeft_shiftRight_le (a m n : ℕ) (h : n ≤ m) :
    (a <<< m) >>> n = a <<< (m - n) := by
  apply Nat.eq_of_testBit_eq
  intro i
  simp only [Nat.testBit_shiftRight, Nat.testBit_shiftLeft]
  rcases Nat.lt_or_ge i (m - n) with h1 | h1
  · have : ¬(m ≤ n + i) := by omega
    simp [this, Nat.not_le.mpr h1]
  · have h2 : m ≤ n + i := by omega
    have h3 : n + i - m = i - (m - n) := by omega
    simp [h2, h3, Nat.le_of_lt, h1]

theorem xor_cancel_left_self (a b : ℕ) : (a ^^^ b) ^^^ a = b := by
  rw [Nat.xor_comm a b, Nat.xor_cancel_right]

/-! ## Table write-back justification

The table loop writes `rowRightTable[reverseRow row]` and
`colDownTable[reverseRow row]` while `row` sweeps `[0, 65536)`; since
`reverseRow` is a 16-bit involution, the function embeddings above give
back exactly the written values. -/

theorem rowRightTable_write (row : ℕ) (h : row < 65536) :
    rowRightTable (reverseRow row) =
      reverseRow row ^^^ reverseRow (resultRow row) := by
  unfold rowRightTable
  rw [reverseRow_involutive row h]

theorem colDownTable_write (row : ℕ) (h : row < 65536) :
    colDownTable (reverseRow row) =
      unpackCol (reverseRow row) ^^^ unpackCol (reverseRow (resultRow row)) := by
  unfold colDownTable
  rw [reverseRow_involutive row h]

/-! ## Nibble extraction -/

theorem nibbleAt_lor_shift (b r i p : ℕ) (hr : r ≤ 15) :
    nibbleAt (b ||| (r <<< (4 * i))) p =
      if i = p then nibbleAt b p ||| r else nibbleAt b p := by
  unfold nibbleAt
  rw [shiftRight_lor, lor_land_distrib]
  rcases eq_or_ne i p with rfl | hne
  · rw [if_pos rfl, Nat.shiftLeft_shiftRight]
    congr 1
    rw [land_15_eq_mod]
    omega
  · rw [if_neg hne]
    rcases Nat.lt_or_ge i p with hlt | hge
    · have h1 : 4 * i ≤ 4 * p := by omega
      rw [shiftLeft_shiftRight_ge _ _ _ h1]
      have h2 : r >>> (4 * p - 4 * i) = 0 := by
        rw [Nat.shiftRight_eq_div_pow]
        apply Nat.div_eq_of_lt
        calc r < 2 ^ 4 := by omega
          _ ≤ 2 ^ (4 * p - 4 * i) := Nat.pow_le_pow_right (by norm_num) (by omega)
      rw [h2]
      simp
    · have hgt : p < i := by omega
      have h1 : 4 * p ≤ 4 * i := by omega
      rw [shiftLeft_shiftRight_le _ _ _ h1]
      have h2 : (r <<< (4 * i - 4 * p)) &&& 15 = 0 := by
        rw [Nat.shiftLeft_eq, land_15_eq_mod]
        obtain ⟨m, hm⟩ : ∃ m, 2 ^ (4 * i - 4 * p) = 16 * m :=
          ⟨2 ^ (4 * i - 4 * p - 4), by
            rw [show (16 : ℕ) = 2 ^ 4 from rfl, ← pow_add]
            congr 1
            omega⟩
        rw [hm, show r * (16 * m) = 16 * (r * m) from by ring,
          Nat.mul_mod_right]
      rw [h2]
      simp


theorem tilesToBoard_fold_nibble (ts : List Tile)
    (h : ∀ t ∈ ts, log2i t.value ≤ 15) (p : ℕ) : ∀ b : ℕ,
    nibbleAt (ts.foldl
      (fun board t => board ||| (log2i t.value <<< (4 * (t.row * 4 + t.col)))) b) p =
      ts.foldl
        (fun a t => if t.row * 4 + t.col = p then a ||| log2i t.value else a)
        (nibbleAt b p) := by
  induction ts with
  | nil => intro b; rfl
  | cons t ts ih =>
    intro b
    simp only [List.foldl_cons]
    rw [ih (fun u hu => h u (List.mem_cons_of_mem t hu)),
      nibbleAt_lor_shift b _ _ p (h t (List.mem_cons_self t ts))]

/-- Claim C2, amended.  `tilesToBoard` accumulates with a bitwise or, so a
cell written twice holds the or of the ranks, not the rank written last:
for every tile list whose ranks fit in a nibble, the nibble of cell `p` is
the left fold of bitwise or over the ranks of the tiles placed at `p`. -/
theorem c2_theorem (ts : List Tile) (h : ∀ t ∈ ts, log2i t.value ≤ 15)
    (p : ℕ) :
    nibbleAt (tilesToBoard ts) p =
      ts.foldl
        (fun a t => if t.row * 4 + t.col = p then a ||| log2i t.value else a)
        0 := by
  unfold tilesToBoard
  rw [tilesToBoard_fold_nibble ts h p 0]
  congr 1
  simp [nibbleAt]

/-- Claim C2, counterexample to the claim as stated: writing a rank-2 tile
(value 4) and then a rank-1 tile (value 2) at cell `(0,0)` leaves the
nibble `2 ||| 1 = 3`, not the last-written rank `1`. -/
theorem c2_counterexample :
    nibbleAt (tilesToBoard [⟨4, 0, 0⟩, ⟨2, 0, 0⟩]) 0 = 3 ∧ log2i 2 = 1 ∧
      (3 : ℕ) ≠ 1 := by
  decide

/-- Witness for the amended claim C2 at a concrete two-tile list. -/
theorem c2_witness :
    (∀ t ∈ [Tile.mk 4 0 0, Tile.mk 2 0 0], log2i t.value ≤ 15) ∧
      nibbleAt (tilesToBoard [Tile.mk 4 0 0, Tile.mk 2 0 0]) 0 =
        List.foldl
          (fun a t => if t.row * 4 + t.col = 0 then a ||| log2i t.value else a)
          0 [Tile.mk 4 0 0, Tile.mk 2 0 0] :=
  ⟨by decide, c2_theorem _ (by decide) 0⟩

/-- Claim C3, amended.  Merging is saturated: sliding keeps every nibble at
most 15 (the guard `moveLine[i] !== 0xf` never produces 16), but a merge of
two rank-15 tiles collapses the pair into a single rank-15 nibble — the
second 15 is zeroed, not kept: `[15,15,0,0]` slides to `[15,0,0,0]`, and on
a packed board row `0xff` moves left to `0xf`. -/
theorem c3_theorem :
    (∀ l, (∀ x ∈ l, x ≤ 15) → ∀ y ∈ moveLine l, y ≤ 15) ∧
      moveLine [15, 15, 0, 0] = [15, 0, 0, 0] ∧ executeMove 2 0xff = 0xf :=
  ⟨moveLine_le, by decide, by decide⟩

/-- Claim C3, counterexample to the claim as stated: after sliding the row
`0xff` (two adjacent rank-15 tiles) to the left, the second nibble is `0`,
so both rank-15 nibbles are not present in the result. -/
theorem c3_counterexample :
    executeMove 2 0xff = 0xf ∧ nibbleAt 0xf 1 = 0 ∧ nibbleAt 0xff 1 = 15 := by
  decide

/-- Witness for the bound part of amended claim C3 at a concrete line. -/
theorem c3_witness :
    (∀ x ∈ [15, 15, 0, 0], x ≤ 15) ∧ (∀ y ∈ moveLine [15, 15, 0, 0], y ≤ 15) :=
  ⟨by decide, c3_theorem.1 _ (by decide)⟩

/-- Claim C7: table symmetry.  For every 16-bit row pattern, the nibble-wise
bit reversal of `rowLeftTable[row] XOR row` equals
`rowRightTable[reverse row] XOR reverse row`. -/
theorem c7_theorem (row : ℕ) (h : row < 65536) :
    reverseRow (rowLeftTable row ^^^ row) =
      rowRightTable (reverseRow row) ^^^ reverseRow row := by
  unfold rowLeftTable rowRightTable
  rw [xor_cancel_left_self, xor_cancel_left_self, reverseRow_involutive row h]

/-- Witness for claim C7 at row `0x0211`. -/
theorem c7_witness :
    (0x211 : ℕ) < 65536 ∧
      reverseRow (rowLeftTable 0x211 ^^^ 0x211) =
        rowRightTable (reverseRow 0x211) ^^^ reverseRow 0x211 :=
  ⟨by decide, c7_theorem 0x211 (by decide)⟩


/-! ## The zero budget is never armed (claim C9) -/

theorem timeExceeded_none (τ : ℕ → ℚ) (start : Option ℚ) (s : EvalState) :
    timeExceeded τ none start s = (false, s) := rfl

theorem timeExceeded_zero (τ : ℕ → ℚ) (start : Option ℚ) (s : EvalState) :
    timeExceeded τ (some 0) start s = (false, s) := by
  simp [timeExceeded, timeLimitArmed]

theorem searchGo_zero_budget (τ T : ℕ → ℚ) (start : Option ℚ) :
    ∀ (fuel : ℕ) (c : SearchCall),
      searchGo τ T (some 0) start fuel c = searchGo τ T none start fuel c := by
  intro fuel
  induction fuel with
  | zero => intro c; rfl
  | succ fuel ih =>
    intro c
    cases c <;>
      simp only [searchGo, timeExceeded_zero, timeExceeded_none, ih]

theorem rootScan_zero_budget (τ T : ℕ → ℚ) (start : Option ℚ) (fuel board : ℕ) :
    ∀ (moves : List ℕ) (s : EvalState) (bm : Int) (bs : ℚ),
      rootScan τ T (some 0) start fuel board moves s bm bs =
        rootScan τ T none start fuel board moves s bm bs := by
  intro moves
  induction moves with
  | nil => intro s bm bs; rfl
  | cons m rest ih =>
    intro s bm bs
    simp only [rootScan, scoreToplevelMove, scoreTilechooseNode,
      searchGo_zero_budget, ih]

/-- Claim C9: a time budget of `0` is falsy, so `getBestMove` with
`timeLimitMs = 0` never arms a deadline and behaves exactly like a call
with no time limit; moreover `timeExceeded` never reports a timeout under
a zero budget. -/
theorem c9_theorem (τ T : ℕ → ℚ) (fuel : ℕ) (tiles : List Tile) :
    getBestMove τ T fuel tiles (some 0) = getBestMove τ T fuel tiles none ∧
      ∀ (start : Option ℚ) (s : EvalState),
        timeExceeded τ (some 0) start s = (false, s) := by
  refine ⟨?_, timeExceeded_zero τ⟩
  unfold getBestMove
  rcases eq_or_ne tiles [] with rfl | hne
  · rfl
  · simp only [if_neg hne]
    have e1 : initState (some (0 : ℚ)) (tilesToBoard tiles) =
        initState none (tilesToBoard tiles) := by
      simp [initState, timeLimitArmed]
    have e2 : initStart τ (some (0 : ℚ)) = initStart τ none := by
      simp [initStart, timeLimitArmed]
    rw [e1, e2, rootScan_zero_budget]


/-! ## The root scan on blocked directions (claims C4, C5, C8) -/

theorem scoreToplevelMove_noop (τ T : ℕ → ℚ) (tl start : Option ℚ)
    (fuel : ℕ) (s : EvalState) (board move : ℕ)
    (h : executeMove move board = board) :
    scoreToplevelMove τ T tl start fuel s board move = (0, s) := by
  simp [scoreToplevelMove, h]

theorem rootScan_noops (τ T : ℕ → ℚ) (tl start : Option ℚ) (fuel board : ℕ) :
    ∀ (moves : List ℕ) (s : EvalState) (bm : Int) (bs : ℚ), 0 ≤ bs →
      (∀ m ∈ moves, executeMove m board = board) →
      rootScan τ T tl start fuel board moves s bm bs = (bm, bs, s) := by
  intro moves
  induction moves with
  | nil => intro s bm bs _ _; rfl
  | cons m rest ih =>
    intro s bm bs hbs h
    rw [rootScan, scoreToplevelMove_noop τ T tl start fuel s board m
      (h m (List.mem_cons_self m rest))]
    have hgt : ¬((0 : ℚ) > bs) := by exact not_lt.mpr hbs
    simp only [hgt, if_false]
    split
    · rfl
    · exact ih s bm bs hbs fun u hu => h u (List.mem_cons_of_mem m hu)

theorem fallbackScan_eq_none_iff (board : ℕ) :
    fallbackScan board = none ↔ ∀ m, m < 4 → executeMove m board = board := by
  unfold fallbackScan
  rw [List.find?_eq_none]
  constructor
  · intro h m hm
    have : m = 1 ∨ m = 2 ∨ m = 3 ∨ m = 0 := by omega
    rcases this with rfl | rfl | rfl | rfl <;>
      simpa using h _ (by simp)
  · intro h m hm
    have hm4 : m < 4 := by
      simp only [List.mem_cons, List.not_mem_nil, or_false] at hm
      rcases hm with rfl | rfl | rfl | rfl <;> omega
    simpa using h m hm4

/-- Claim C4: `getBestMove` returns `none` exactly when no direction
changes the packed board, for every heuristic table, wall clock, fuel and
time budget (including a zero budget).  The empty tile list maps to the
zero board, on which every direction is a no-op. -/
theorem c4_theorem (τ T : ℕ → ℚ) (fuel : ℕ) (tiles : List Tile)
    (tl : Option ℚ) :
    getBestMove τ T fuel tiles tl = none ↔
      ∀ m, m < 4 → executeMove m (tilesToBoard tiles) = tilesToBoard tiles := by
  unfold getBestMove
  rcases eq_or_ne tiles [] with rfl | hne
  · constructor
    · intro _ m hm
      have hb : tilesToBoard ([] : List Tile) = 0 := rfl
      rw [hb]
      interval_cases m <;> decide
    · intro _
      simp
  · simp only [if_neg hne]
    constructor
    · intro h m hm
      by_contra hchange
      rcases hr : (rootScan τ T tl (initStart τ tl) fuel (tilesToBoard tiles)
          [0, 1, 2, 3] (initState tl (tilesToBoard tiles)) (-1) 0) with ⟨bm, bs, st⟩
      rw [hr] at h
      rcases le_or_lt 0 bm with hbm | hbm
      · simp only [ge_iff_le, if_pos hbm] at h
        exact Option.some_ne_none _ h
      · have : ¬(bm ≥ 0) := by omega
        simp only [ge_iff_le] at this
        simp only [this, if_false] at h
        rcases hf : fallbackScan (tilesToBoard tiles) with _ | mv
        · rw [fallbackScan_eq_none_iff] at hf
          exact hchange (hf m hm)
        · rw [hf] at h
          exact Option.some_ne_none _ h
    · intro h
      rw [rootScan_noops τ T tl (initStart τ tl) fuel (tilesToBoard tiles)
        [0, 1, 2, 3] (initState tl (tilesToBoard tiles)) (-1) 0 le_rfl
        (fun m hm => h m (by
          simp only [List.mem_cons, List.not_mem_nil, or_false] at hm
          rcases hm with rfl | rfl | rfl | rfl <;> omega))]
      have : ¬((-1 : Int) ≥ 0) := by omega
      simp only [ge_iff_le] at this
      simp only [this, if_false]
      rw [(fallbackScan_eq_none_iff (tilesToBoard tiles)).mpr h]


theorem fallback_chain (board : ℕ) :
    (match fallbackScan board with
      | some move => some (moveIndexToDirection move)
      | none => none) =
      (if executeMove 1 board ≠ board then some Direction.down
        else if executeMove 2 board ≠ board then some Direction.left
          else if executeMove 3 board ≠ board then some Direction.right
            else if executeMove 0 board ≠ board then some Direction.up
              else none) := by
  unfold fallbackScan
  cases hb1 : (executeMove 1 board != board) with
  | true =>
    have e1 : executeMove 1 board ≠ board := by simpa using hb1
    simp [List.find?, hb1, e1, moveIndexToDirection]
  | false =>
    have e1 : executeMove 1 board = board := by simpa using hb1
    cases hb2 : (executeMove 2 board != board) with
    | true =>
      have e2 : executeMove 2 board ≠ board := by simpa using hb2
      simp [List.find?, hb1, hb2, e1, e2, moveIndexToDirection]
    | false =>
      have e2 : executeMove 2 board = board := by simpa using hb2
      cases hb3 : (executeMove 3 board != board) with
      | true =>
        have e3 : executeMove 3 board ≠ board := by simpa using hb3
        simp [List.find?, hb1, hb2, hb3, e1, e2, e3, moveIndexToDirection]
      | false =>
        have e3 : executeMove 3 board = board := by simpa using hb3
        cases hb0 : (executeMove 0 board != board) with
        | true =>
          have e0 : executeMove 0 board ≠ board := by simpa using hb0
          simp [List.find?, hb1, hb2, hb3, hb0, e1, e2, e3, e0,
            moveIndexToDirection]
        | false =>
          have e0 : executeMove 0 board = board := by simpa using hb0
          simp [List.find?, hb1, hb2, hb3, hb0, e1, e2, e3, e0]

/-- Claim C8: whenever no root direction achieves a score strictly greater
than zero (each sequentially computed root score is at most 0, so the
strict `score > bestScore` comparison never fires), `getBestMove` falls
back to the fixed priority order down, left, right, up and returns the
first direction whose move changes the board, or `none` when all four
leave it unchanged. -/
theorem c8_theorem (τ T : ℕ → ℚ) (fuel : ℕ) (tiles : List Tile)
    (tl : Option ℚ) (hne : tiles ≠ [])
    (hsc : ∀ k, k < 4 → rootScore τ T tl fuel tiles k ≤ 0) :
    getBestMove τ T fuel tiles tl =
      (if executeMove 1 (tilesToBoard tiles) ≠ tilesToBoard tiles then
          some Direction.down
        else if executeMove 2 (tilesToBoard tiles) ≠ tilesToBoard tiles then
          some Direction.left
          else if executeMove 3 (tilesToBoard tiles) ≠ tilesToBoard tiles then
            some Direction.right
            else if executeMove 0 (tilesToBoard tiles) ≠ tilesToBoard tiles then
              some Direction.up
              else none) := by
  have h0 := hsc 0 (by norm_num)
  have h1 := hsc 1 (by norm_num)
  have h2 := hsc 2 (by norm_num)
  have h3 := hsc 3 (by norm_num)
  simp only [rootScore, rootState] at h0 h1 h2 h3
  have hroot : (rootScan τ T tl (initStart τ tl) fuel (tilesToBoard tiles)
      [0, 1, 2, 3] (initState tl (tilesToBoard tiles)) (-1) 0).1 = -1 := by
    simp only [rootScan, not_lt.mpr h0, if_false, not_lt.mpr h1,
      not_lt.mpr h2, not_lt.mpr h3]
    split
    · rfl
    · split
      · rfl
      · split
        · rfl
        · split <;> rfl
  unfold getBestMove
  rw [if_neg hne]
  have hneg : ¬((rootScan τ T tl (initStart τ tl) fuel (tilesToBoard tiles)
      [0, 1, 2, 3] (initState tl (tilesToBoard tiles)) (-1) 0).1 ≥ 0) := by
    rw [hroot]
    omega
  rw [if_neg hneg, fallback_chain]


theorem rootScan_noop_step (τ T : ℕ → ℚ) (tl start : Option ℚ)
    (fuel board m : ℕ) (rest : List ℕ) (s : EvalState)
    (h : executeMove m board = board) (hto : s.timedOut = false) :
    rootScan τ T tl start fuel board (m :: rest) s (-1) 0 =
      rootScan τ T tl start fuel board rest s (-1) 0 := by
  rw [rootScan, scoreToplevelMove_noop τ T tl start fuel s board m h]
  have : ¬((0 : ℚ) > 0) := lt_irrefl 0
  simp [this, hto]

theorem rootScan_step_hit (τ T : ℕ → ℚ) (tl start : Option ℚ)
    (fuel board d0 : ℕ) (rest : List ℕ) (s : EvalState)
    (hrest : ∀ m ∈ rest, executeMove m board = board) :
    rootScan τ T tl start fuel board (d0 :: rest) s (-1) 0 =
      (if (scoreToplevelMove τ T tl start fuel s board d0).1 > 0 then
        ((d0 : Int), (scoreToplevelMove τ T tl start fuel s board d0).1,
          (scoreToplevelMove τ T tl start fuel s board d0).2)
      else (-1, 0, (scoreToplevelMove τ T tl start fuel s board d0).2)) := by
  rw [rootScan]
  by_cases hs : (scoreToplevelMove τ T tl start fuel s board d0).1 > 0
  · simp only [hs, if_true]
    split
    · rfl
    · rw [rootScan_noops τ T tl start fuel board rest _ _ _ (le_of_lt hs) hrest]
  · simp only [hs, if_false]
    split
    · rfl
    · rw [rootScan_noops τ T tl start fuel board rest _ _ _ le_rfl hrest]

/-- Claim C5: on a board where exactly one direction `d0` changes the
board, `getBestMove` returns that direction, for every heuristic table,
wall clock, fuel and time budget (including 0 ms): the root loop skips
no-op directions without consulting the clock, and if the searched score
of `d0` fails to beat 0 the fixed-priority fallback still returns `d0`. -/
theorem c5_theorem (τ T : ℕ → ℚ) (fuel : ℕ) (tiles : List Tile)
    (tl : Option ℚ) (d0 : ℕ) (hne : tiles ≠ []) (hd : d0 < 4)
    (hch : executeMove d0 (tilesToBoard tiles) ≠ tilesToBoard tiles)
    (hun : ∀ m, m < 4 → m ≠ d0 →
      executeMove m (tilesToBoard tiles) = tilesToBoard tiles) :
    getBestMove τ T fuel tiles tl = some (moveIndexToDirection d0) := by
  unfold getBestMove
  rw [if_neg hne]
  dsimp only
  have hto : (initState tl (tilesToBoard tiles)).timedOut = false := rfl
  interval_cases d0
  · rw [rootScan_step_hit τ T tl (initStart τ tl) fuel (tilesToBoard tiles) 0
      [1, 2, 3] _ (by
        intro m hm
        simp only [List.mem_cons, List.not_mem_nil, or_false] at hm
        rcases hm with rfl | rfl | rfl <;> exact hun _ (by omega) (by omega))]
    split
    · simp
    · have h1 := hun 1 (by omega) (by omega)
      have h2 := hun 2 (by omega) (by omega)
      have h3 := hun 3 (by omega) (by omega)
      norm_num
      rw [fallback_chain]
      simp [h1, h2, h3, hch, moveIndexToDirection]
  · rw [rootScan_noop_step τ T tl (initStart τ tl) fuel (tilesToBoard tiles) 0
        [1, 2, 3] _ (hun 0 (by omega) (by omega)) hto,
      rootScan_step_hit τ T tl (initStart τ tl) fuel (tilesToBoard tiles) 1
      [2, 3] _ (by
        intro m hm
        simp only [List.mem_cons, List.not_mem_nil, or_false] at hm
        rcases hm with rfl | rfl <;> exact hun _ (by omega) (by omega))]
    split
    · simp
    · norm_num
      rw [fallback_chain]
      simp [hch, moveIndexToDirection]
  · rw [rootScan_noop_step τ T tl (initStart τ tl) fuel (tilesToBoard tiles) 0
        [1, 2, 3] _ (hun 0 (by omega) (by omega)) hto,
      rootScan_noop_step τ T tl (initStart τ tl) fuel (tilesToBoard tiles) 1
        [2, 3] _ (hun 1 (by omega) (by omega)) hto,
      rootScan_step_hit τ T tl (initStart τ tl) fuel (tilesToBoard tiles) 2
      [3] _ (by
        intro m hm
        simp only [List.mem_cons, List.not_mem_nil, or_false] at hm
        subst hm
        exact hun _ (by omega) (by omega))]
    split
    · simp
    · have h1 := hun 1 (by omega) (by omega)
      norm_num
      rw [fallback_chain]
      simp [h1, hch, moveIndexToDirection]
  · rw [rootScan_noop_step τ T tl (initStart τ tl) fuel (tilesToBoard tiles) 0
        [1, 2, 3] _ (hun 0 (by omega) (by omega)) hto,
      rootScan_noop_step τ T tl (initStart τ tl) fuel (tilesToBoard tiles) 1
        [2, 3] _ (hun 1 (by omega) (by omega)) hto,
      rootScan_noop_step τ T tl (initStart τ tl) fuel (tilesToBoard tiles) 2
        [3] _ (hun 2 (by omega) (by omega)) hto,
      rootScan_step_hit τ T tl (initStart τ tl) fuel (tilesToBoard tiles) 3
      [] _ (by intro m hm; cases hm)]
    split
    · simp
    · have h1 := hun 1 (by omega) (by omega)
      have h2 := hun 2 (by omega) (by omega)
      norm_num
      rw [fallback_chain]
      simp [h1, h2, hch, moveIndexToDirection]


/-- Witness for claim C5 on a position whose only legal move is left. -/
theorem c5_witness :
    uniqTiles ≠ [] ∧ (2 : ℕ) < 4 ∧
      executeMove 2 (tilesToBoard uniqTiles) ≠ tilesToBoard uniqTiles ∧
      (∀ m, m < 4 → m ≠ 2 →
        executeMove m (tilesToBoard uniqTiles) = tilesToBoard uniqTiles) ∧
      getBestMove constClock constTable 0 uniqTiles none =
        some (moveIndexToDirection 2) :=
  ⟨by decide, by decide, by decide, by decide,
    c5_theorem constClock constTable 0 uniqTiles none 2 (by decide) (by decide)
      (by decide) (by decide)⟩

/-- Witness for claim C8 on a terminal checkerboard with a zero budget and
zero fuel: all root scores are `0`, and the fallback chain is reached. -/
theorem c8_witness :
    termTiles ≠ [] ∧
      (∀ k, k < 4 → rootScore constClock constTable none 0 termTiles k ≤ 0) ∧
      getBestMove constClock constTable 0 termTiles none =
        (if executeMove 1 (tilesToBoard termTiles) ≠ tilesToBoard termTiles then
            some Direction.down
          else if executeMove 2 (tilesToBoard termTiles) ≠ tilesToBoard termTiles
            then some Direction.left
            else if executeMove 3 (tilesToBoard termTiles) ≠
                tilesToBoard termTiles then
              some Direction.right
              else if executeMove 0 (tilesToBoard termTiles) ≠
                  tilesToBoard termTiles then
                some Direction.up
                else none) :=
  ⟨by decide, by decide,
    c8_theorem constClock constTable 0 termTiles none (by decide) (by decide)⟩


/-! ## The transposition cache above the caching threshold (claim C6) -/

theorem timeExceeded_fields (τ : ℕ → ℚ) (tl start : Option ℚ)
    (s : EvalState) :
    (timeExceeded τ tl start s).2.curdepth = s.curdepth ∧
      (timeExceeded τ tl start s).2.transTable = s.transTable ∧
      (timeExceeded τ tl start s).2.cachehits = s.cachehits := by
  unfold timeExceeded
  split
  · exact ⟨rfl, rfl, rfl⟩
  · split
    · exact ⟨rfl, rfl, rfl⟩
    · exact ⟨rfl, rfl, rfl⟩
    · dsimp only
      split <;> exact ⟨rfl, rfl, rfl⟩

theorem searchGo_fields (τ T : ℕ → ℚ) (tl start : Option ℚ) :
    ∀ (fuel : ℕ) (c : SearchCall),
      (getOut (searchGo τ T tl start fuel c)).2.curdepth =
          (callState c).curdepth ∧
        (15 ≤ (callState c).curdepth →
          (getOut (searchGo τ T tl start fuel c)).2.transTable =
              (callState c).transTable ∧
            (getOut (searchGo τ T tl start fuel c)).2.cachehits =
              (callState c).cachehits) := by
  intro fuel
  induction fuel with
  | zero =>
    intro c
    cases c <;> exact ⟨rfl, fun _ => ⟨rfl, rfl⟩⟩
  | succ fuel ih =>
    intro c
    cases c with
    | chance s board cprob =>
      obtain ⟨tc, tt, tch⟩ := timeExceeded_fields τ tl start s
      simp only [searchGo, callState]
      split
      · exact ⟨tc, fun _ => ⟨tt, tch⟩⟩
      · split
        · exact ⟨tc, fun _ => ⟨tt, tch⟩⟩
        · split
          · rename_i out heq
            by_cases hd : (timeExceeded τ tl start s).2.curdepth <
                CACHE_DEPTH_LIMIT
            · rw [if_pos hd] at heq
              rcases hm : mapGet (timeExceeded τ tl start s).2.transTable
                  board with _ | ⟨d, hv⟩
              · rw [hm] at heq
                simp at heq
              · rw [hm] at heq
                dsimp only at heq
                by_cases hdc : d ≤ (timeExceeded τ tl start s).2.curdepth
                · rw [if_pos hdc] at heq
                  cases heq
                  refine ⟨tc, fun h15 => absurd hd (Nat.not_lt.mpr ?_)⟩
                  rw [tc]
                  exact h15
                · rw [if_neg hdc] at heq
                  simp at heq
            · rw [if_neg hd] at heq
              simp at heq
          · rename_i heq
            split
            · exact ⟨tc, fun _ => ⟨tt, tch⟩⟩
            · rcases hr : searchGo τ T tl start fuel
                  (SearchCall.spawn (timeExceeded τ tl start s).2 board
                    (cprob / (countEmpty board : ℚ)) (List.range 16) 0) with
                early | ok
              · have hih := ih (SearchCall.spawn (timeExceeded τ tl start s).2
                  board (cprob / (countEmpty board : ℚ)) (List.range 16) 0)
                rw [hr] at hih
                dsimp only
                simp only [getOut, callState] at hih ⊢
                rcases early with ⟨q, s2⟩
                exact ⟨hih.1.trans tc, fun h15 => by
                  have h15b : 15 ≤ (timeExceeded τ tl start s).2.curdepth := by
                    rw [tc]; exact h15
                  obtain ⟨e1, e2⟩ := hih.2 h15b
                  exact ⟨e1.trans tt, e2.trans tch⟩⟩
              · rcases ok with ⟨res, s2⟩
                have hih := ih (SearchCall.spawn (timeExceeded τ tl start s).2
                  board (cprob / (countEmpty board : ℚ)) (List.range 16) 0)
                rw [hr] at hih
                dsimp only
                simp only [getOut, callState] at hih ⊢
                by_cases hs2 : s2.curdepth < CACHE_DEPTH_LIMIT
                · rw [if_pos hs2]
                  refine ⟨hih.1.trans tc, fun h15 => absurd hs2 ?_⟩
                  apply Nat.not_lt.mpr
                  rw [hih.1, tc]
                  exact h15
                · rw [if_neg hs2]
                  exact ⟨hih.1.trans tc, fun h15 => by
                    have h15b : 15 ≤ (timeExceeded τ tl start s).2.curdepth := by
                      rw [tc]; exact h15
                    obtain ⟨e1, e2⟩ := hih.2 h15b
                    exact ⟨e1.trans tt, e2.trans tch⟩⟩
    | spawn s board prob idxs acc =>
      cases idxs with
      | nil => exact ⟨rfl, fun _ => ⟨rfl, rfl⟩⟩
      | cons index rest =>
        obtain ⟨tc, tt, tch⟩ := timeExceeded_fields τ tl start s
        simp only [searchGo, callState]
        split
        · exact ⟨tc, fun _ => ⟨tt, tch⟩⟩
        · split
          · have ih1 := ih (SearchCall.agent (timeExceeded τ tl start s).2
              (board ||| 1 <<< (4 * index)) (prob * mkRat 9 10))
            have ih2 := ih (SearchCall.agent
              (getOut (searchGo τ T tl start fuel
                (SearchCall.agent (timeExceeded τ tl start s).2
                  (board ||| 1 <<< (4 * index)) (prob * mkRat 9 10)))).2
              (board ||| 1 <<< (4 * index) <<< 1) (prob * mkRat 1 10))
            have ih3 := ih (SearchCall.spawn
              (getOut (searchGo τ T tl start fuel (SearchCall.agent
                (getOut (searchGo τ T tl start fuel
                  (SearchCall.agent (timeExceeded τ tl start s).2
                    (board ||| 1 <<< (4 * index)) (prob * mkRat 9 10)))).2
                (board ||| 1 <<< (4 * index) <<< 1) (prob * mkRat 1 10)))).2
              board prob rest
              (acc + (getOut (searchGo τ T tl start fuel
                  (SearchCall.agent (timeExceeded τ tl start s).2
                    (board ||| 1 <<< (4 * index)) (prob * mkRat 9 10)))).1 *
                  mkRat 9 10 +
                (getOut (searchGo τ T tl start fuel (SearchCall.agent
                  (getOut (searchGo τ T tl start fuel
                    (SearchCall.agent (timeExceeded τ tl start s).2
                      (board ||| 1 <<< (4 * index)) (prob * mkRat 9 10)))).2
                  (board ||| 1 <<< (4 * index) <<< 1)
                  (prob * mkRat 1 10)))).1 * mkRat 1 10))
            simp only [callState] at ih1 ih2 ih3
            refine ⟨?_, ?_⟩
            · rw [ih3.1, ih2.1, ih1.1, tc]
            · intro h15
              have h15a : 15 ≤ (timeExceeded τ tl start s).2.curdepth := by
                rw [tc]; exact h15
              have h15b := h15a.trans (le_of_eq ih1.1.symm)
              have h15c := h15b.trans (le_of_eq ih2.1.symm)
              obtain ⟨e1, e2⟩ := ih1.2 h15a
              obtain ⟨f1, f2⟩ := ih2.2 h15b
              obtain ⟨g1, g2⟩ := ih3.2 h15c
              exact ⟨(g1.trans f1).trans (e1.trans tt),
                (g2.trans f2).trans (e2.trans tch)⟩
          · have ih1 := ih (SearchCall.spawn (timeExceeded τ tl start s).2
              board prob rest acc)
            simp only [callState] at ih1
            refine ⟨ih1.1.trans tc, fun h15 => ?_⟩
            have h15a : 15 ≤ (timeExceeded τ tl start s).2.curdepth := by
              rw [tc]; exact h15
            obtain ⟨e1, e2⟩ := ih1.2 h15a
            exact ⟨e1.trans tt, e2.trans tch⟩
    | agent s board cprob =>
      obtain ⟨tc, tt, tch⟩ := timeExceeded_fields τ tl start s
      simp only [searchGo, callState]
      split
      · exact ⟨tc, fun _ => ⟨tt, tch⟩⟩
      · have ih1 := ih (SearchCall.agentLoop
          { (timeExceeded τ tl start s).2 with
            curdepth := (timeExceeded τ tl start s).2.curdepth + 1 }
          board cprob [0, 1, 2, 3] 0)
        simp only [callState] at ih1
        simp only [getOut] at ih1 ⊢
        refine ⟨?_, fun h15 => ?_⟩
        · rw [ih1.1]
          simp [tc]
        · have h15a : 15 ≤ ((timeExceeded τ tl start s).2.curdepth + 1) := by
            rw [tc]; omega
          obtain ⟨e1, e2⟩ := ih1.2 h15a
          exact ⟨e1.trans tt, e2.trans tch⟩
    | agentLoop s board cprob moves best =>
      cases moves with
      | nil => exact ⟨rfl, fun _ => ⟨rfl, rfl⟩⟩
      | cons move rest =>
        obtain ⟨tc, tt, tch⟩ := timeExceeded_fields τ tl start s
        simp only [searchGo, callState]
        split
        · exact ⟨tc, fun _ => ⟨tt, tch⟩⟩
        · split
          · have ihc := ih (SearchCall.chance
              { (timeExceeded τ tl start s).2 with
                movesEvaled := (timeExceeded τ tl start s).2.movesEvaled + 1 }
              (executeMove move board) cprob)
            have ihl := ih (SearchCall.agentLoop
              (getOut (searchGo τ T tl start fuel (SearchCall.chance
                { (timeExceeded τ tl start s).2 with
                  movesEvaled :=
                    (timeExceeded τ tl start s).2.movesEvaled + 1 }
                (executeMove move board) cprob))).2
              board cprob rest
              (if (getOut (searchGo τ T tl start fuel (SearchCall.chance
                  { (timeExceeded τ tl start s).2 with
                    movesEvaled :=
                      (timeExceeded τ tl start s).2.movesEvaled + 1 }
                  (executeMove move board) cprob))).1 > best then
                (getOut (searchGo τ T tl start fuel (SearchCall.chance
                  { (timeExceeded τ tl start s).2 with
                    movesEvaled :=
                      (timeExceeded τ tl start s).2.movesEvaled + 1 }
                  (executeMove move board) cprob))).1
              else best))
            simp only [callState] at ihc ihl
            refine ⟨?_, fun h15 => ?_⟩
            · rw [ihl.1, ihc.1, tc]
            · have h15a : 15 ≤ (timeExceeded τ tl start s).2.curdepth := by
                rw [tc]; exact h15
              obtain ⟨e1, e2⟩ := ihc.2 h15a
              have h15b : 15 ≤ (getOut (searchGo τ T tl start fuel
                  (SearchCall.chance
                    { (timeExceeded τ tl start s).2 with
                      movesEvaled :=
                        (timeExceeded τ tl start s).2.movesEvaled + 1 }
                    (executeMove move board) cprob))).2.curdepth := by
                rw [ihc.1]
                exact h15a
              obtain ⟨f1, f2⟩ := ihl.2 h15b
              exact ⟨(f1.trans e1).trans tt, (f2.trans e2).trans tch⟩
          · have ih1 := ih (SearchCall.agentLoop
              { (timeExceeded τ tl start s).2 with
                movesEvaled := (timeExceeded τ tl start s).2.movesEvaled + 1 }
              board cprob rest best)
            simp only [callState] at ih1
            refine ⟨ih1.1.trans tc, fun h15 => ?_⟩
            have h15a : 15 ≤ (timeExceeded τ tl start s).2.curdepth := by
              rw [tc]; exact h15
            obtain ⟨e1, e2⟩ := ih1.2 h15a
            exact ⟨e1.trans tt, e2.trans tch⟩


theorem chance_cache_hit (τ T : ℕ → ℚ) (tl start : Option ℚ) (fuel : ℕ)
    (s s1 : EvalState) (board : ℕ) (cprob : ℚ) (d : ℕ) (hval : ℚ)
    (hte : timeExceeded τ tl start s = (false, s1))
    (hpr : ¬(cprob < CPROB_THRESH_BASE))
    (hdl : s1.curdepth < s1.depthLimit)
    (hca : s1.curdepth < CACHE_DEPTH_LIMIT)
    (hmg : mapGet s1.transTable board = some (d, hval))
    (hd : d ≤ s1.curdepth) :
    scoreTilechooseNode τ T tl start (fuel + 1) s board cprob =
      (hval, { s1 with cachehits := s1.cachehits + 1 }) := by
  unfold scoreTilechooseNode
  simp only [searchGo, hte]
  have hguard : ¬(cprob < CPROB_THRESH_BASE ∨ s1.depthLimit ≤ s1.curdepth) := by
    push_neg
    exact ⟨not_lt.mp (fun h => hpr h), hdl⟩
  simp only [if_neg hguard, if_pos hca, hmg]
  simp only [if_pos hd]
  rfl


theorem chance_cache_deep_miss (τ T : ℕ → ℚ) (tl start : Option ℚ) (fuel : ℕ)
    (s s1 : EvalState) (board : ℕ) (cprob : ℚ)
    (hte : timeExceeded τ tl start s = (false, s1))
    (hpr : ¬(cprob < CPROB_THRESH_BASE))
    (hdl : s1.curdepth < s1.depthLimit)
    (hca : s1.curdepth < CACHE_DEPTH_LIMIT)
    (hmiss : mapGet s1.transTable board = none ∨
      ∃ d hval, mapGet s1.transTable board = some (d, hval) ∧ s1.curdepth < d) :
    scoreTilechooseNode τ T tl start (fuel + 1) s board cprob =
      if countEmpty board = 0 then (scoreHeurBoard T board, s1)
      else
        match searchGo τ T tl start fuel
            (SearchCall.spawn s1 board (cprob / (countEmpty board : ℚ))
              (List.range 16) 0) with
        | Sum.inl early => early
        | Sum.inr (res, s2) =>
          if s2.curdepth < CACHE_DEPTH_LIMIT then
            (res / (countEmpty board : ℚ),
              { s2 with
                transTable :=
                  mapSet s2.transTable board
                    (s2.curdepth, res / (countEmpty board : ℚ)) })
          else (res / (countEmpty board : ℚ), s2) := by
  unfold scoreTilechooseNode
  simp only [searchGo, hte]
  have hguard : ¬(cprob < CPROB_THRESH_BASE ∨ s1.depthLimit ≤ s1.curdepth) := by
    push_neg
    exact ⟨not_lt.mp (fun h => hpr h), hdl⟩
  rcases hmiss with hmg | ⟨d, hval, hmg, hd⟩
  · simp only [if_neg hguard, if_pos hca, hmg]
    by_cases h0 : countEmpty board = 0
    · simp only [if_pos h0]
      rfl
    · simp only [if_neg h0]
      rcases hr : searchGo τ T tl start fuel
          (SearchCall.spawn s1 board (cprob / (countEmpty board : ℚ))
            (List.range 16) 0) with early | ok
      · simp [hr, getOut]
      · rcases ok with ⟨res, s2⟩
        simp only [hr]
        by_cases hs2 : s2.curdepth < CACHE_DEPTH_LIMIT
        · simp [if_pos hs2, getOut]
        · simp [if_neg hs2, getOut]
  · simp only [if_neg hguard, if_pos hca, hmg, if_neg (Nat.not_le.mpr hd)]
    by_cases h0 : countEmpty board = 0
    · simp only [if_pos h0]
      rfl
    · simp only [if_neg h0]
      rcases hr : searchGo τ T tl start fuel
          (SearchCall.spawn s1 board (cprob / (countEmpty board : ℚ))
            (List.range 16) 0) with early | ok
      · simp [hr, getOut]
      · rcases ok with ⟨res, s2⟩
        simp only [hr]
        by_cases hs2 : s2.curdepth < CACHE_DEPTH_LIMIT
        · simp [if_pos hs2, getOut]
        · simp [if_neg hs2, getOut]

theorem chance_timeout (τ T : ℕ → ℚ) (tl start : Option ℚ) (fuel : ℕ)
    (s s1 : EvalState) (board : ℕ) (cprob : ℚ)
    (hte : timeExceeded τ tl start s = (true, s1)) :
    scoreTilechooseNode τ T tl start (fuel + 1) s board cprob =
        (scoreHeurBoard T board, s1) ∧
      s1.transTable = s.transTable ∧ s1.cachehits = s.cachehits := by
  refine ⟨?_, ?_, ?_⟩
  · unfold scoreTilechooseNode
    simp only [searchGo, hte]
    rfl
  · have h := (timeExceeded_fields τ tl start s).2.1
    rw [hte] at h
    exact h
  · have h := (timeExceeded_fields τ tl start s).2.2
    rw [hte] at h
    exact h

theorem chance_cutoff (τ T : ℕ → ℚ) (tl start : Option ℚ) (fuel : ℕ)
    (s s1 : EvalState) (board : ℕ) (cprob : ℚ)
    (hte : timeExceeded τ tl start s = (false, s1))
    (hguard : cprob < CPROB_THRESH_BASE ∨ s1.depthLimit ≤ s1.curdepth) :
    scoreTilechooseNode τ T tl start (fuel + 1) s board cprob =
        (scoreHeurBoard T board,
          { s1 with maxdepth := max s1.curdepth s1.maxdepth }) ∧
      s1.transTable = s.transTable ∧ s1.cachehits = s.cachehits := by
  refine ⟨?_, ?_, ?_⟩
  · unfold scoreTilechooseNode
    simp only [searchGo, hte]
    rw [if_pos hguard]
    rfl
  · have h := (timeExceeded_fields τ tl start s).2.1
    rw [hte] at h
    exact h
  · have h := (timeExceeded_fields τ tl start s).2.2
    rw [hte] at h
    exact h


/-- Claim C6, amended.  The transposition cache is consulted and written
only when the current depth is strictly below the caching threshold of 15
(`curdepth < 15`, not `≤ 15`), and only when the timeout, probability,
depth-limit and full-board early returns do not fire; a cached entry is
returned directly exactly when it was stored at the same or smaller depth.
Conjuncts: (1) hit path — all guards passing and an entry stored at depth
`d ≤ curdepth`: the node returns the cached value directly and bumps the
hit counter; (2) an entry stored at a strictly deeper depth (or no entry)
is NOT returned directly: the node falls through to the full expectimax
recursion — and on a full board to the heuristic early return, which also
skips the store; (3) a firing timeout check returns the heuristic with the
table and the hit counter unchanged, at every depth; (4) so does the
probability/depth-limit early return; (5) a chance node entered at depth
15 or deeper — and its entire subtree — neither reads nor writes the
cache. -/
theorem c6_theorem :
    (∀ (τ T : ℕ → ℚ) (tl start : Option ℚ) (fuel : ℕ) (s s1 : EvalState)
      (board : ℕ) (cprob : ℚ) (d : ℕ) (hval : ℚ),
      timeExceeded τ tl start s = (false, s1) →
      ¬(cprob < CPROB_THRESH_BASE) →
      s1.curdepth < s1.depthLimit →
      s1.curdepth < CACHE_DEPTH_LIMIT →
      mapGet s1.transTable board = some (d, hval) →
      d ≤ s1.curdepth →
      scoreTilechooseNode τ T tl start (fuel + 1) s board cprob =
        (hval, { s1 with cachehits := s1.cachehits + 1 })) ∧
    (∀ (τ T : ℕ → ℚ) (tl start : Option ℚ) (fuel : ℕ) (s s1 : EvalState)
      (board : ℕ) (cprob : ℚ),
      timeExceeded τ tl start s = (false, s1) →
      ¬(cprob < CPROB_THRESH_BASE) →
      s1.curdepth < s1.depthLimit →
      s1.curdepth < CACHE_DEPTH_LIMIT →
      (mapGet s1.transTable board = none ∨
        ∃ d hval, mapGet s1.transTable board = some (d, hval) ∧
          s1.curdepth < d) →
      scoreTilechooseNode τ T tl start (fuel + 1) s board cprob =
        if countEmpty board = 0 then (scoreHeurBoard T board, s1)
        else
          match searchGo τ T tl start fuel
              (SearchCall.spawn s1 board (cprob / (countEmpty board : ℚ))
                (List.range 16) 0) with
          | Sum.inl early => early
          | Sum.inr (res, s2) =>
            if s2.curdepth < CACHE_DEPTH_LIMIT then
              (res / (countEmpty board : ℚ),
                { s2 with
                  transTable :=
                    mapSet s2.transTable board
                      (s2.curdepth, res / (countEmpty board : ℚ)) })
            else (res / (countEmpty board : ℚ), s2)) ∧
    (∀ (τ T : ℕ → ℚ) (tl start : Option ℚ) (fuel : ℕ) (s s1 : EvalState)
      (board : ℕ) (cprob : ℚ),
      timeExceeded τ tl start s = (true, s1) →
      scoreTilechooseNode τ T tl start (fuel + 1) s board cprob =
          (scoreHeurBoard T board, s1) ∧
        s1.transTable = s.transTable ∧ s1.cachehits = s.cachehits) ∧
    (∀ (τ T : ℕ → ℚ) (tl start : Option ℚ) (fuel : ℕ) (s s1 : EvalState)
      (board : ℕ) (cprob : ℚ),
      timeExceeded τ tl start s = (false, s1) →
      (cprob < CPROB_THRESH_BASE ∨ s1.depthLimit ≤ s1.curdepth) →
      scoreTilechooseNode τ T tl start (fuel + 1) s board cprob =
          (scoreHeurBoard T board,
            { s1 with maxdepth := max s1.curdepth s1.maxdepth }) ∧
        s1.transTable = s.transTable ∧ s1.cachehits = s.cachehits) ∧
    (∀ (τ T : ℕ → ℚ) (tl start : Option ℚ) (fuel : ℕ) (s : EvalState)
      (board : ℕ) (cprob : ℚ), 15 ≤ s.curdepth →
      (scoreTilechooseNode τ T tl start fuel s board cprob).2.transTable =
          s.transTable ∧
        (scoreTilechooseNode τ T tl start fuel s board cprob).2.cachehits =
          s.cachehits) := by
  refine ⟨?_, ?_, ?_, ?_, ?_⟩
  · intro τ T tl start fuel s s1 board cprob d hval hte hpr hdl hca hmg hd
    exact chance_cache_hit τ T tl start fuel s s1 board cprob d hval hte hpr
      hdl hca hmg hd
  · intro τ T tl start fuel s s1 board cprob hte hpr hdl hca hmiss
    exact chance_cache_deep_miss τ T tl start fuel s s1 board cprob hte hpr
      hdl hca hmiss
  · intro τ T tl start fuel s s1 board cprob hte
    exact chance_timeout τ T tl start fuel s s1 board cprob hte
  · intro τ T tl start fuel s s1 board cprob hte hguard
    exact chance_cutoff τ T tl start fuel s s1 board cprob hte hguard
  · intro τ T tl start fuel s board cprob h15
    exact (searchGo_fields τ T tl start fuel
      (SearchCall.chance s board cprob)).2 h15

/-- Claim C6, counterexample to the claim as stated ("consulted and written
exactly when depth ≤ 15"): a chance node entered at depth exactly 15, below
its depth limit, above the probability cutoff and with empty cells on the
board, writes nothing to the cache, and does not consult an applicable
cached entry (stored at depth 0 ≤ 15) either — the guard in the code is
`curdepth < 15`, and early returns bypass the cache besides. -/
theorem c6_counterexample :
    (scoreTilechooseNode constClock constTable none none 2
        ⟨[], 0, 15, 0, 0, 20, false, 0⟩ 1 1).2.transTable = [] ∧
      (scoreTilechooseNode constClock constTable none none 2
        ⟨[(1, 0, 9)], 0, 15, 0, 0, 20, false, 0⟩ 1 1).2.cachehits = 0 ∧
      (15 : ℕ) ≤ CACHE_DEPTH_LIMIT ∧ countEmpty 1 ≠ 0 ∧
      ¬((1 : ℚ) < CPROB_THRESH_BASE) ∧ (15 : ℕ) < 20 := by
  refine ⟨by decide, by decide, by decide, by decide, ?_, by decide⟩
  decide

/-- Witness for amended claim C6 at concrete states: a hit on an
applicable entry; a deeper-stored entry being recomputed — no hit is
counted and the entry is overwritten at the current depth — rather than
returned; a firing timeout and a depth-limit cutoff leaving the cache
untouched; and a depth-15 node keeping table and counter. -/
theorem c6_witness :
    timeExceeded constClock none none cacheState = (false, cacheState) ∧
      ¬((1 : ℚ) < CPROB_THRESH_BASE) ∧
      cacheState.curdepth < cacheState.depthLimit ∧
      cacheState.curdepth < CACHE_DEPTH_LIMIT ∧
      mapGet cacheState.transTable 5 = some (0, 7) ∧
      scoreTilechooseNode constClock constTable none none 1 cacheState 5 1 =
        (7, { cacheState with cachehits := cacheState.cachehits + 1 }) ∧
      mapGet [(5, 2, 7)] 5 = some (2, 7) ∧
      (scoreTilechooseNode constClock constTable none none 1
          ⟨[(5, 2, 7)], 0, 0, 0, 0, 3, false, 0⟩ 5 1 =
        if countEmpty 5 = 0 then
          (scoreHeurBoard constTable 5, ⟨[(5, 2, 7)], 0, 0, 0, 0, 3, false, 0⟩)
        else
          match searchGo constClock constTable none none 0
              (SearchCall.spawn ⟨[(5, 2, 7)], 0, 0, 0, 0, 3, false, 0⟩ 5
                (1 / (countEmpty 5 : ℚ)) (List.range 16) 0) with
          | Sum.inl early => early
          | Sum.inr (res, s2) =>
            if s2.curdepth < CACHE_DEPTH_LIMIT then
              (res / (countEmpty 5 : ℚ),
                { s2 with
                  transTable :=
                    mapSet s2.transTable 5
                      (s2.curdepth, res / (countEmpty 5 : ℚ)) })
            else (res / (countEmpty 5 : ℚ), s2)) ∧
      (scoreTilechooseNode constClock constTable none none 1
          ⟨[(5, 2, 7)], 0, 0, 0, 0, 3, false, 0⟩ 5 1).2.cachehits = 0 ∧
      (mapGet (scoreTilechooseNode constClock constTable none none 1
          ⟨[(5, 2, 7)], 0, 0, 0, 0, 3, false, 0⟩ 5 1).2.transTable 5).map
        Prod.fst = some 0 ∧
      (scoreTilechooseNode (fun _ => (2 : ℚ)) constTable (some 1) (some 0) 1
            cacheState 5 1 =
          (scoreHeurBoard constTable 5,
            { cacheState with timedOut := true, clock := 1 }) ∧
        ({ cacheState with timedOut := true, clock := 1 }).transTable =
            cacheState.transTable ∧
        ({ cacheState with timedOut := true, clock := 1 }).cachehits =
            cacheState.cachehits) ∧
      (scoreTilechooseNode constClock constTable none none 1
            ⟨[], 0, 3, 0, 0, 3, false, 0⟩ 1 1 =
          (scoreHeurBoard constTable 1, ⟨[], 3, 3, 0, 0, 3, false, 0⟩) ∧
        ([] : List (ℕ × ℕ × ℚ)) = [] ∧ (0 : ℕ) = 0) ∧
      (scoreTilechooseNode constClock constTable none none 2
            ⟨[(1, 0, 9)], 0, 15, 0, 0, 20, false, 0⟩ 1 1).2.transTable =
          [(1, 0, 9)] ∧
      (scoreTilechooseNode constClock constTable none none 2
            ⟨[(1, 0, 9)], 0, 15, 0, 0, 20, false, 0⟩ 1 1).2.cachehits = 0 := by
  have hte2 : timeExceeded (fun _ => (2 : ℚ)) (some 1) (some 0) cacheState =
      (true, { cacheState with timedOut := true, clock := 1 }) := by
    unfold timeExceeded
    rw [if_neg (by simp [timeLimitArmed])]
    dsimp only
    rw [if_pos (by simp [sub_zero])]
    rfl
  have hmiss := c6_theorem.2.1 constClock constTable none none 0
    ⟨[(5, 2, 7)], 0, 0, 0, 0, 3, false, 0⟩ ⟨[(5, 2, 7)], 0, 0, 0, 0, 3, false, 0⟩
    5 1 rfl (by decide) (by decide) (by decide)
    (Or.inr ⟨2, 7, by decide, by decide⟩)
  refine ⟨rfl, by decide, by decide, by decide, by decide,
    c6_theorem.1 constClock constTable none none 0 cacheState cacheState 5 1
      0 7 rfl (by decide) (by decide) (by decide) (by decide) (by decide),
    by decide, hmiss, by decide, by decide,
    c6_theorem.2.2.1 (fun _ => (2 : ℚ)) constTable (some 1) (some 0) 0
      cacheState { cacheState with timedOut := true, clock := 1 } 5 1 hte2,
    c6_theorem.2.2.2.1 constClock constTable none none 0
      ⟨[], 0, 3, 0, 0, 3, false, 0⟩ ⟨[], 0, 3, 0, 0, 3, false, 0⟩ 1 1 rfl
      (Or.inr (by decide)),
    (c6_theorem.2.2.2.2 constClock constTable none none 2
      ⟨[(1, 0, 9)], 0, 15, 0, 0, 20, false, 0⟩ 1 1 (by decide)).1,
    (c6_theorem.2.2.2.2 constClock constTable none none 2
      ⟨[(1, 0, 9)], 0, 15, 0, 0, 20, false, 0⟩ 1 1 (by decide)).2⟩

/-! ## Transposition is an involution (claim C10) -/

theorem transpose_lor (x y : ℕ) :
    transpose (x ||| y) = transpose x ||| transpose y := by
  apply Nat.eq_of_testBit_eq
  intro i
  unfold transpose
  dsimp only
  simp only [Nat.testBit_or, Nat.testBit_and, Nat.testBit_shiftLeft,
    Nat.testBit_shiftRight, Bool.and_or_distrib_right,
    Bool.and_or_distrib_left]
  ac_rfl

theorem transpose_transpose_single :
    ∀ i, i < 16 → ∀ m, m < 16 →
      transpose (transpose (m <<< (4 * i))) = m <<< (4 * i) := by
  decide

theorem transpose_zero : transpose 0 = 0 := by decide

theorem nibbleAt_lt (b p : ℕ) : nibbleAt b p < 16 := by
  unfold nibbleAt
  rw [land_15_eq_mod]
  omega

theorem orPack_mod (b : ℕ) : ∀ n, orPack (nibbleAt b) n = b % 16 ^ n := by
  intro n
  induction n with
  | zero => simp [orPack, Nat.mod_one]
  | succ n ih =>
    rw [orPack, ih]
    have e1 : nibbleAt b n = b / 16 ^ n % 16 := by
      unfold nibbleAt
      rw [land_15_eq_mod, Nat.shiftRight_eq_div_pow, Nat.pow_mul]
    have e2 : (2 : ℕ) ^ (4 * n) = 16 ^ n := by
      rw [Nat.pow_mul]
    have hlt : b % 16 ^ n < 2 ^ (4 * n) := by
      rw [e2]
      exact Nat.mod_lt b (Nat.pos_pow_of_pos n (by norm_num))
    rw [lor_shiftLeft_eq_add _ hlt, e1, e2, Nat.mod_pow_succ]
    ring

theorem orPack_nib (b : ℕ) (h : b < 2 ^ 64) : orPack (nibbleAt b) 16 = b := by
  rw [orPack_mod b 16]
  apply Nat.mod_eq_of_lt
  calc b < 2 ^ 64 := h
    _ = 16 ^ 16 := by norm_num

/-- Claim C10: the nibble transpose used by the vertical move executors and
the heuristic evaluator is an involution on 64-bit packed boards. -/
theorem c10_theorem (b : ℕ) (h : b < 2 ^ 64) : transpose (transpose b) = b := by
  have hn : ∀ i, nibbleAt b i < 16 := fun i => nibbleAt_lt b i
  conv_lhs => rw [← orPack_nib b h]
  conv_rhs => rw [← orPack_nib b h]
  simp only [orPack, transpose_lor, transpose_zero,
    transpose_transpose_single 0 (by norm_num) _ (hn 0),
    transpose_transpose_single 1 (by norm_num) _ (hn 1),
    transpose_transpose_single 2 (by norm_num) _ (hn 2),
    transpose_transpose_single 3 (by norm_num) _ (hn 3),
    transpose_transpose_single 4 (by norm_num) _ (hn 4),
    transpose_transpose_single 5 (by norm_num) _ (hn 5),
    transpose_transpose_single 6 (by norm_num) _ (hn 6),
    transpose_transpose_single 7 (by norm_num) _ (hn 7),
    transpose_transpose_single 8 (by norm_num) _ (hn 8),
    transpose_transpose_single 9 (by norm_num) _ (hn 9),
    transpose_transpose_single 10 (by norm_num) _ (hn 10),
    transpose_transpose_single 11 (by norm_num) _ (hn 11),
    transpose_transpose_single 12 (by norm_num) _ (hn 12),
    transpose_transpose_single 13 (by norm_num) _ (hn 13),
    transpose_transpose_single 14 (by norm_num) _ (hn 14),
    transpose_transpose_single 15 (by norm_num) _ (hn 15)]

/-- Witness for claim C10 at a concrete board. -/
theorem c10_witness :
    (0x123456789abcdef0 : ℕ) < 2 ^ 64 ∧
      transpose (transpose 0x123456789abcdef0) = 0x123456789abcdef0 :=
  ⟨by norm_num, c10_theorem 0x123456789abcdef0 (by norm_num)⟩

/-! ## Fixed points of the slide loop (claim C1) -/

theorem getD_set_self (l : List ℕ) (i v : ℕ) (h : i < l.length) :
    (l.set i v).getD i 0 = v := by
  simp [List.getD_eq_getElem?_getD, List.getElem?_set, h]

theorem getD_set_ne (l : List ℕ) (i p v : ℕ) (h : i ≠ p) :
    (l.set i v).getD p 0 = l.getD p 0 := by
  simp [List.getD_eq_getElem?_getD, List.getElem?_set, h]

theorem getD_ne_lt_length {l : List ℕ} {i : ℕ} (h : l.getD i 0 ≠ 0) :
    i < l.length := by
  by_contra hc
  exact h (List.getD_eq_default _ _ (le_of_not_lt hc))

theorem nextNonzeroAux_spec (ml : List ℕ) : ∀ k j,
    j ≤ nextNonzeroAux ml k j ∧ nextNonzeroAux ml k j ≤ j + k ∧
      (∀ p, j ≤ p → p < nextNonzeroAux ml k j → ml.getD p 0 = 0) ∧
      (nextNonzeroAux ml k j < j + k → ml.getD (nextNonzeroAux ml k j) 0 ≠ 0) := by
  intro k
  induction k with
  | zero =>
    intro j
    have h0 : nextNonzeroAux ml 0 j = j := rfl
    rw [h0]
    exact ⟨le_refl _, by omega, fun p hp hp' => absurd hp (by omega), by omega⟩
  | succ k ih =>
    intro j
    by_cases hz : ml.getD j 0 = 0
    · have hrw : nextNonzeroAux ml (k + 1) j = nextNonzeroAux ml k (j + 1) := by
        simp only [nextNonzeroAux]
        rw [if_pos hz]
      obtain ⟨h1, h2, h3, h4⟩ := ih (j + 1)
      rw [hrw]
      refine ⟨by omega, by omega, ?_, fun hlt => h4 (by omega)⟩
      intro p hp hp'
      rcases Nat.eq_or_lt_of_le hp with h | h
      · rwa [← h]
      · exact h3 p h hp'
    · have hrw : nextNonzeroAux ml (k + 1) j = j := by
        simp only [nextNonzeroAux]
        rw [if_neg hz]
      rw [hrw]
      exact ⟨le_refl _, by omega, fun p hp hp' => absurd hp (by omega), fun _ => hz⟩

theorem moveLineLoop_ge3 (fuel : ℕ) (ml : List ℕ) (i : ℕ) (hi : ¬ i < 3) :
    moveLineLoop (fuel + 1) ml i = ml := by
  simp only [moveLineLoop]
  rw [if_neg hi]

theorem moveLineLoop_j4 (fuel : ℕ) (ml : List ℕ) (i : ℕ) (hi : i < 3)
    (hJ : nextNonzero ml (i + 1) = 4) :
    moveLineLoop (fuel + 1) ml i = ml := by
  simp only [moveLineLoop]
  rw [if_pos hi, if_pos hJ]

theorem moveLineLoop_move (fuel : ℕ) (ml : List ℕ) (i : ℕ) (hi : i < 3)
    (hJ : ¬ nextNonzero ml (i + 1) = 4) (hz : ml.getD i 0 = 0) :
    moveLineLoop (fuel + 1) ml i =
      moveLineLoop fuel
        ((ml.set i (ml.getD (nextNonzero ml (i + 1)) 0)).set (nextNonzero ml (i + 1)) 0) i := by
  simp only [moveLineLoop]
  rw [if_pos hi, if_neg hJ, if_pos hz]

theorem moveLineLoop_merge (fuel : ℕ) (ml : List ℕ) (i : ℕ) (hi : i < 3)
    (hJ : ¬ nextNonzero ml (i + 1) = 4) (hz : ¬ ml.getD i 0 = 0)
    (he : ml.getD i 0 = ml.getD (nextNonzero ml (i + 1)) 0) :
    moveLineLoop (fuel + 1) ml i =
      moveLineLoop fuel
        ((ml.set i (if ml.getD i 0 ≠ 0xf then ml.getD i 0 + 1 else ml.getD i 0)).set
          (nextNonzero ml (i + 1)) 0) (i + 1) := by
  simp only [moveLineLoop]
  rw [if_pos hi, if_neg hJ, if_neg hz, if_pos he]

theorem moveLineLoop_neq (fuel : ℕ) (ml : List ℕ) (i : ℕ) (hi : i < 3)
    (hJ : ¬ nextNonzero ml (i + 1) = 4) (hz : ¬ ml.getD i 0 = 0)
    (he : ¬ ml.getD i 0 = ml.getD (nextNonzero ml (i + 1)) 0) :
    moveLineLoop (fuel + 1) ml i = moveLineLoop fuel ml (i + 1) := by
  simp only [moveLineLoop]
  rw [if_pos hi, if_neg hJ, if_neg hz, if_neg he]

theorem nextNonzero_facts (ml : List ℕ) (i : ℕ) (hi : i < 3)
    (hJ : ¬ nextNonzero ml (i + 1) = 4) :
    i + 1 ≤ nextNonzero ml (i + 1) ∧ nextNonzero ml (i + 1) < 4 ∧
      ml.getD (nextNonzero ml (i + 1)) 0 ≠ 0 ∧
      (∀ p, i + 1 ≤ p → p < nextNonzero ml (i + 1) → ml.getD p 0 = 0) := by
  obtain ⟨h1, h2, h3, h4⟩ := nextNonzeroAux_spec ml (4 - (i + 1)) (i + 1)
  unfold nextNonzero at hJ ⊢
  refine ⟨h1, by omega, h4 (by omega), h3⟩

theorem moveLineLoop_length : ∀ fuel ml i, (moveLineLoop fuel ml i).length = ml.length := by
  intro fuel
  induction fuel with
  | zero => intro ml i; rfl
  | succ fuel ih =>
    intro ml i
    by_cases hi : i < 3
    · by_cases hJ : nextNonzero ml (i + 1) = 4
      · rw [moveLineLoop_j4 fuel ml i hi hJ]
      · by_cases hz : ml.getD i 0 = 0
        · rw [moveLineLoop_move fuel ml i hi hJ hz, ih]
          simp
        · by_cases he : ml.getD i 0 = ml.getD (nextNonzero ml (i + 1)) 0
          · rw [moveLineLoop_merge fuel ml i hi hJ hz he, ih]
            simp
          · rw [moveLineLoop_neq fuel ml i hi hJ hz he, ih]
    · rw [moveLineLoop_ge3 fuel ml i hi]

theorem moveLineLoop_frozen : ∀ fuel ml i p, p < i →
    (moveLineLoop fuel ml i).getD p 0 = ml.getD p 0 := by
  intro fuel
  induction fuel with
  | zero => intro ml i p _; rfl
  | succ fuel ih =>
    intro ml i p hp
    by_cases hi : i < 3
    · by_cases hJ : nextNonzero ml (i + 1) = 4
      · rw [moveLineLoop_j4 fuel ml i hi hJ]
      · obtain ⟨hJ1, hJ2, hJ3, hJ4⟩ := nextNonzero_facts ml i hi hJ
        by_cases hz : ml.getD i 0 = 0
        · rw [moveLineLoop_move fuel ml i hi hJ hz, ih _ _ _ hp,
            getD_set_ne _ _ _ _ (by omega), getD_set_ne _ _ _ _ (by omega)]
        · by_cases he : ml.getD i 0 = ml.getD (nextNonzero ml (i + 1)) 0
          · rw [moveLineLoop_merge fuel ml i hi hJ hz he,
              ih _ _ _ (by omega : p < i + 1),
              getD_set_ne _ _ _ _ (by omega), getD_set_ne _ _ _ _ (by omega)]
          · rw [moveLineLoop_neq fuel ml i hi hJ hz he]
            exact ih _ _ _ (by omega : p < i + 1)
    · rw [moveLineLoop_ge3 fuel ml i hi]

theorem moveLineLoop_nonzero_at : ∀ fuel ml i, ml.getD i 0 ≠ 0 →
    (moveLineLoop fuel ml i).getD i 0 ≠ 0 := by
  intro fuel
  induction fuel with
  | zero => intro ml i h; exact h
  | succ fuel ih =>
    intro ml i h
    have hlen : i < ml.length := getD_ne_lt_length h
    by_cases hi : i < 3
    · by_cases hJ : nextNonzero ml (i + 1) = 4
      · rw [moveLineLoop_j4 fuel ml i hi hJ]; exact h
      · obtain ⟨hJ1, hJ2, hJ3, hJ4⟩ := nextNonzero_facts ml i hi hJ
        by_cases hz : ml.getD i 0 = 0
        · exact absurd hz h
        · by_cases he : ml.getD i 0 = ml.getD (nextNonzero ml (i + 1)) 0
          · rw [moveLineLoop_merge fuel ml i hi hJ hz he,
              moveLineLoop_frozen _ _ _ _ (by omega : i < i + 1),
              getD_set_ne _ _ _ _ (by omega),
              getD_set_self _ _ _ hlen]
            split <;> omega
          · rw [moveLineLoop_neq fuel ml i hi hJ hz he,
              moveLineLoop_frozen _ _ _ _ (by omega : i < i + 1)]
            exact h
    · rw [moveLineLoop_ge3 fuel ml i hi]; exact h

theorem sigma4_set_move (l : List ℕ) (hl : l.length = 4) (i j : ℕ)
    (hi : i < 3) (hij : i < j) (hj : j < 4)
    (hzi : l.getD i 0 = 0) (hzj : l.getD j 0 ≠ 0) :
    sigma4 ((l.set i (l.getD j 0)).set j 0) = sigma4 l := by
  have e : ∀ p, p < 4 → ((l.set i (l.getD j 0)).set j 0).getD p 0 =
      if p = j then 0 else if p = i then l.getD j 0 else l.getD p 0 := by
    intro p hp
    by_cases hpj : p = j
    · subst hpj
      rw [getD_set_self _ _ _ (by simp [hl]; omega)]
      simp
    · rw [getD_set_ne _ _ _ _ (fun hh => hpj hh.symm)]
      by_cases hpi : p = i
      · subst hpi
        rw [getD_set_self _ _ _ (by omega)]
        simp [hpj]
      · rw [getD_set_ne _ _ _ _ (fun hh => hpi hh.symm)]
        simp [hpj, hpi]
  unfold sigma4
  rw [e 0 (by omega), e 1 (by omega), e 2 (by omega), e 3 (by omega)]
  unfold nz
  interval_cases i <;> interval_cases j <;> simp_all <;> split_ifs <;> omega

theorem sigma4_set_merge (l : List ℕ) (hl : l.length = 4) (i j w : ℕ)
    (hi : i < 3) (hij : i < j) (hj : j < 4)
    (hni : l.getD i 0 ≠ 0) (hnj : l.getD j 0 ≠ 0) (hw : w ≠ 0) :
    sigma4 ((l.set i w).set j 0) + 1 = sigma4 l := by
  have e : ∀ p, p < 4 → ((l.set i w).set j 0).getD p 0 =
      if p = j then 0 else if p = i then w else l.getD p 0 := by
    intro p hp
    by_cases hpj : p = j
    · subst hpj
      rw [getD_set_self _ _ _ (by simp [hl]; omega)]
      simp
    · rw [getD_set_ne _ _ _ _ (fun hh => hpj hh.symm)]
      by_cases hpi : p = i
      · subst hpi
        rw [getD_set_self _ _ _ (by omega)]
        simp [hpj]
      · rw [getD_set_ne _ _ _ _ (fun hh => hpi hh.symm)]
        simp [hpj, hpi]
  unfold sigma4
  rw [e 0 (by omega), e 1 (by omega), e 2 (by omega), e 3 (by omega)]
  unfold nz
  interval_cases i <;> interval_cases j <;> simp_all <;> split_ifs <;> omega

theorem moveLineLoop_sigma4_le : ∀ fuel ml i, ml.length = 4 →
    sigma4 (moveLineLoop fuel ml i) ≤ sigma4 ml := by
  intro fuel
  induction fuel with
  | zero => intro ml i _; exact le_refl _
  | succ fuel ih =>
    intro ml i hl
    by_cases hi : i < 3
    · by_cases hJ : nextNonzero ml (i + 1) = 4
      · rw [moveLineLoop_j4 fuel ml i hi hJ]
      · obtain ⟨hJ1, hJ2, hJ3, hJ4⟩ := nextNonzero_facts ml i hi hJ
        by_cases hz : ml.getD i 0 = 0
        · rw [moveLineLoop_move fuel ml i hi hJ hz]
          calc sigma4 (moveLineLoop fuel
                ((ml.set i (ml.getD (nextNonzero ml (i + 1)) 0)).set (nextNonzero ml (i + 1)) 0) i)
              ≤ sigma4 ((ml.set i (ml.getD (nextNonzero ml (i + 1)) 0)).set
                  (nextNonzero ml (i + 1)) 0) := ih _ _ (by simp [hl])
            _ = sigma4 ml := sigma4_set_move ml hl i _ hi (by omega) hJ2 hz hJ3
        · by_cases he : ml.getD i 0 = ml.getD (nextNonzero ml (i + 1)) 0
          · rw [moveLineLoop_merge fuel ml i hi hJ hz he]
            have hw : (if ml.getD i 0 ≠ 0xf then ml.getD i 0 + 1 else ml.getD i 0) ≠ 0 := by
              split <;> omega
            have hdec := sigma4_set_merge ml hl i (nextNonzero ml (i + 1))
              (if ml.getD i 0 ≠ 0xf then ml.getD i 0 + 1 else ml.getD i 0)
              hi (by omega) hJ2 hz hJ3 hw
            have hle := ih ((ml.set i
              (if ml.getD i 0 ≠ 0xf then ml.getD i 0 + 1 else ml.getD i 0)).set
              (nextNonzero ml (i + 1)) 0) (i + 1) (by simp [hl])
            omega
          · rw [moveLineLoop_neq fuel ml i hi hJ hz he]
            exact ih _ _ hl
    · rw [moveLineLoop_ge3 fuel ml i hi]

theorem moveLineLoop_fix_iff : ∀ fuel ml i, ml.length = 4 → 3 ≤ fuel + i →
    (moveLineLoop fuel ml i = ml ↔ noMoveFrom ml i) := by
  intro fuel
  induction fuel with
  | zero =>
    intro ml i hl hf
    constructor
    · intro _ k hk hk3
      exact absurd hk3 (by omega)
    · intro _; rfl
  | succ fuel ih =>
    intro ml i hl hf
    by_cases hi : i < 3
    · by_cases hJ : nextNonzero ml (i + 1) = 4
      · rw [moveLineLoop_j4 fuel ml i hi hJ]
        have hzeros : ∀ p, i + 1 ≤ p → p < 4 → ml.getD p 0 = 0 := by
          obtain ⟨h1, h2, h3, h4⟩ := nextNonzeroAux_spec ml (4 - (i + 1)) (i + 1)
          unfold nextNonzero at hJ
          intro p hp hp4
          exact h3 p hp (by omega)
        refine iff_of_true rfl ?_
        intro k hk hk3
        have hk1 : ml.getD (k + 1) 0 = 0 := hzeros (k + 1) (by omega) (by omega)
        exact ⟨fun _ => hk1, fun hnk heq => hnk (heq.trans hk1)⟩
      · obtain ⟨hJ1, hJ2, hJ3, hJ4⟩ := nextNonzero_facts ml i hi hJ
        by_cases hz : ml.getD i 0 = 0
        · rw [moveLineLoop_move fuel ml i hi hJ hz]
          have hlhs : moveLineLoop fuel
              ((ml.set i (ml.getD (nextNonzero ml (i + 1)) 0)).set (nextNonzero ml (i + 1)) 0)
              i ≠ ml := by
            intro hcontra
            have h1 : ((ml.set i (ml.getD (nextNonzero ml (i + 1)) 0)).set
                (nextNonzero ml (i + 1)) 0).getD i 0 ≠ 0 := by
              rw [getD_set_ne _ _ _ _ (by omega), getD_set_self _ _ _ (by omega)]
              exact hJ3
            have h2 := moveLineLoop_nonzero_at fuel _ i h1
            rw [hcontra] at h2
            exact h2 hz
          have hrhs : ¬ noMoveFrom ml i := by
            intro hnm
            have hk := hnm (nextNonzero ml (i + 1) - 1) (by omega) (by omega)
            have hzk : ml.getD (nextNonzero ml (i + 1) - 1) 0 = 0 := by
              rcases Nat.eq_or_lt_of_le hJ1 with h | h
              · rw [show nextNonzero ml (i + 1) - 1 = i from by omega]
                exact hz
              · exact hJ4 _ (by omega) (by omega)
            have hz1 := hk.1 hzk
            rw [show nextNonzero ml (i + 1) - 1 + 1 = nextNonzero ml (i + 1) from by omega] at hz1
            exact hJ3 hz1
          exact iff_of_false hlhs hrhs
        · by_cases he : ml.getD i 0 = ml.getD (nextNonzero ml (i + 1)) 0
          · rw [moveLineLoop_merge fuel ml i hi hJ hz he]
            have hw : (if ml.getD i 0 ≠ 0xf then ml.getD i 0 + 1 else ml.getD i 0) ≠ 0 := by
              split <;> omega
            have hlhs : moveLineLoop fuel
                ((ml.set i (if ml.getD i 0 ≠ 0xf then ml.getD i 0 + 1 else ml.getD i 0)).set
                  (nextNonzero ml (i + 1)) 0) (i + 1) ≠ ml := by
              intro hcontra
              have hdec := sigma4_set_merge ml hl i (nextNonzero ml (i + 1))
                (if ml.getD i 0 ≠ 0xf then ml.getD i 0 + 1 else ml.getD i 0)
                hi (by omega) hJ2 hz hJ3 hw
              have hle := moveLineLoop_sigma4_le fuel
                ((ml.set i (if ml.getD i 0 ≠ 0xf then ml.getD i 0 + 1 else ml.getD i 0)).set
                  (nextNonzero ml (i + 1)) 0) (i + 1) (by simp [hl])
              rw [hcontra] at hle
              omega
            have hrhs : ¬ noMoveFrom ml i := by
              intro hnm
              rcases Nat.eq_or_lt_of_le hJ1 with h | h
              · have hk := hnm i (le_refl _) hi
                exact hk.2 hz (by rw [h]; exact he)
              · have hk := hnm (nextNonzero ml (i + 1) - 1) (by omega) (by omega)
                have hzk : ml.getD (nextNonzero ml (i + 1) - 1) 0 = 0 :=
                  hJ4 _ (by omega) (by omega)
                have hz1 := hk.1 hzk
                rw [show nextNonzero ml (i + 1) - 1 + 1 = nextNonzero ml (i + 1) from by omega] at hz1
                exact hJ3 hz1
            exact iff_of_false hlhs hrhs
          · rw [moveLineLoop_neq fuel ml i hi hJ hz he]
            rw [ih ml (i + 1) hl (by omega)]
            constructor
            · intro hnm k hk hk3
              rcases Nat.eq_or_lt_of_le hk with hek | hlt
              · subst hek
                refine ⟨fun h0 => absurd h0 hz, fun _ => ?_⟩
                rcases Nat.eq_or_lt_of_le hJ1 with h | h
                · intro heq
                  rw [h] at heq
                  exact he heq
                · have hz1 : ml.getD (i + 1) 0 = 0 := hJ4 _ (le_refl _) (by omega)
                  intro heq
                  exact hz (heq.trans hz1)
              · exact hnm k (by omega) hk3
            · intro hnm k hk hk3
              exact hnm k (by omega) hk3
    · rw [moveLineLoop_ge3 fuel ml i hi]
      refine iff_of_true rfl ?_
      intro k hk hk3
      exact absurd hk3 (by omega)

theorem noMoveFrom_zero_iff (l : List ℕ) : noMoveFrom l 0 ↔ noMoveLine l := by
  unfold noMoveFrom noMoveLine
  constructor
  · intro h
    exact ⟨fun i hi => (h i (Nat.zero_le _) hi).1, fun i hi => (h i (Nat.zero_le _) hi).2⟩
  · rintro ⟨h1, h2⟩ k _ hk3
    exact ⟨h1 k hk3, h2 k hk3⟩

theorem moveLine_fix_iff (l : List ℕ) (hl : l.length = 4) :
    moveLine l = l ↔ noMoveLine l := by
  rw [moveLine, moveLineLoop_fix_iff 8 l 0 hl (by omega), noMoveFrom_zero_iff]

theorem resultRow_fix_iff (r : ℕ) (h : r < 65536) :
    resultRow r = r ↔ noMoveLine (line r) := by
  rw [← moveLine_fix_iff (line r) rfl]
  constructor
  · intro hr
    have hlen : (moveLine (line r)).length = 4 := moveLineLoop_length 8 (line r) 0
    have hle : ∀ x ∈ moveLine (line r), x ≤ 15 := moveLine_le _ (line_le r)
    have hpp : packRow (moveLine (line r)) = packRow (line r) := by
      rw [show packRow (moveLine (line r)) = r from hr, packRow_line r h]
    rw [packRow_eq_add _ hle, packRow_eq_add _ (line_le r)] at hpp
    have b0 := getD_le_of_forall hle 0
    have b1 := getD_le_of_forall hle 1
    have b2 := getD_le_of_forall hle 2
    have b3 := getD_le_of_forall hle 3
    have c0 := getD_le_of_forall (line_le r) 0
    have c1 := getD_le_of_forall (line_le r) 1
    have c2 := getD_le_of_forall (line_le r) 2
    have c3 := getD_le_of_forall (line_le r) 3
    have g0 : (moveLine (line r)).getD 0 0 = (line r).getD 0 0 := by omega
    have g1 : (moveLine (line r)).getD 1 0 = (line r).getD 1 0 := by omega
    have g2 : (moveLine (line r)).getD 2 0 = (line r).getD 2 0 := by omega
    have g3 : (moveLine (line r)).getD 3 0 = (line r).getD 3 0 := by omega
    refine List.ext_getElem (by rw [hlen]; rfl) ?_
    intro i h1 h2
    have hi4 : i < 4 := by rw [hlen] at h1; exact h1
    interval_cases i
    · rw [← List.getD_eq_getElem _ 0 h1, ← List.getD_eq_getElem _ 0 h2]
      exact g0
    · rw [← List.getD_eq_getElem _ 0 h1, ← List.getD_eq_getElem _ 0 h2]
      exact g1
    · rw [← List.getD_eq_getElem _ 0 h1, ← List.getD_eq_getElem _ 0 h2]
      exact g2
    · rw [← List.getD_eq_getElem _ 0 h1, ← List.getD_eq_getElem _ 0 h2]
      exact g3
  · intro hfix
    unfold resultRow
    rw [hfix, packRow_line r h]


theorem rowAt_eq_mod (b k : ℕ) : rowAt b k = b / 2 ^ (16 * k) % 65536 := by
  unfold rowAt ROW_MASK
  rw [land_ffff_eq_mod, Nat.shiftRight_eq_div_pow]

theorem rowAt_lt (b k : ℕ) : rowAt b k < 65536 := by
  rw [rowAt_eq_mod]
  omega

theorem rows_decomp (b : ℕ) (hb : b < 2 ^ 64) :
    rowAt b 0 + rowAt b 1 * 65536 + rowAt b 2 * 4294967296 +
      rowAt b 3 * 281474976710656 = b := by
  rw [rowAt_eq_mod, rowAt_eq_mod, rowAt_eq_mod, rowAt_eq_mod]
  norm_num
  omega

theorem pack4_add (s0 s1 s2 s3 : ℕ) (h0 : s0 < 65536) (h1 : s1 < 65536)
    (h2 : s2 < 65536) (h3 : s3 < 65536) :
    s0 ||| (s1 <<< 16) ||| (s2 <<< 32) ||| (s3 <<< 48) =
      s0 + s1 * 65536 + s2 * 4294967296 + s3 * 281474976710656 := by
  rw [lor_shiftLeft_eq_add _ (show s0 < 2 ^ 16 by omega),
    lor_shiftLeft_eq_add _ (show s0 + s1 * 2 ^ 16 < 2 ^ 32 by omega),
    lor_shiftLeft_eq_add _ (show s0 + s1 * 2 ^ 16 + s2 * 2 ^ 32 < 2 ^ 48 by omega)]
  norm_num

theorem pack4_rowAt (s0 s1 s2 s3 : ℕ) (h0 : s0 < 65536) (h1 : s1 < 65536)
    (h2 : s2 < 65536) (h3 : s3 < 65536) :
    rowAt (s0 ||| (s1 <<< 16) ||| (s2 <<< 32) ||| (s3 <<< 48)) 0 = s0 ∧
      rowAt (s0 ||| (s1 <<< 16) ||| (s2 <<< 32) ||| (s3 <<< 48)) 1 = s1 ∧
      rowAt (s0 ||| (s1 <<< 16) ||| (s2 <<< 32) ||| (s3 <<< 48)) 2 = s2 ∧
      rowAt (s0 ||| (s1 <<< 16) ||| (s2 <<< 32) ||| (s3 <<< 48)) 3 = s3 := by
  rw [rowAt_eq_mod, rowAt_eq_mod, rowAt_eq_mod, rowAt_eq_mod,
    pack4_add s0 s1 s2 s3 h0 h1 h2 h3]
  norm_num
  refine ⟨?_, ?_, ?_, ?_⟩ <;> omega


theorem xor_right_eq_self (b d : ℕ) : b ^^^ d = b ↔ d = 0 := by
  constructor
  · intro h
    have hc := congrArg (fun t => b ^^^ t) h
    simpa [← Nat.xor_assoc, Nat.xor_self] using hc
  · intro h
    simp [h]

theorem xor_chain_eq_iff (b a0 a1 a2 a3 : ℕ) :
    b ^^^ a0 ^^^ a1 ^^^ a2 ^^^ a3 = b ↔ a0 ^^^ a1 ^^^ a2 ^^^ a3 = 0 := by
  rw [show b ^^^ a0 ^^^ a1 ^^^ a2 ^^^ a3 = b ^^^ (a0 ^^^ a1 ^^^ a2 ^^^ a3) from by ac_rfl,
    xor_right_eq_self]

theorem masked_disjoint {a M b N : ℕ} (ha : a &&& M = a) (hb : b &&& N = b)
    (h : M &&& N = 0) : a &&& b = 0 := by
  apply Nat.eq_of_testBit_eq
  intro i
  have hA := congrArg (fun t => Nat.testBit t i) ha
  have hB := congrArg (fun t => Nat.testBit t i) hb
  have hMN := congrArg (fun t => Nat.testBit t i) h
  simp only [Nat.testBit_and, Nat.zero_testBit] at hA hB hMN ⊢
  cases hm : Nat.testBit M i with
  | false =>
    rw [hm] at hA
    simp at hA
    simp [hA]
  | true =>
    rw [hm] at hMN
    simp at hMN
    rw [hMN] at hB
    simp at hB
    simp [hB]

theorem masked_sub_lor {a M : ℕ} (ha : a &&& M = a) (N : ℕ) :
    a &&& (M ||| N) = a := by
  apply Nat.eq_of_testBit_eq
  intro i
  have hA := congrArg (fun t => Nat.testBit t i) ha
  simp only [Nat.testBit_and, Nat.testBit_or] at hA ⊢
  cases hai : Nat.testBit a i with
  | false => simp
  | true =>
    rw [hai] at hA
    simp at hA
    simp [hA]

theorem masked_lor {a M b N : ℕ} (ha : a &&& M = a) (hb : b &&& N = b) :
    (a ||| b) &&& (M ||| N) = a ||| b := by
  rw [lor_land_distrib, masked_sub_lor ha N]
  congr 1
  rw [Nat.lor_comm M N]
  exact masked_sub_lor hb M

theorem masked_xor {a b M : ℕ} (ha : a &&& M = a) (hb : b &&& M = b) :
    (a ^^^ b) &&& M = a ^^^ b := by
  apply Nat.eq_of_testBit_eq
  intro i
  have hA := congrArg (fun t => Nat.testBit t i) ha
  have hB := congrArg (fun t => Nat.testBit t i) hb
  simp only [Nat.testBit_and, Nat.testBit_xor] at hA hB ⊢
  cases hm : Nat.testBit M i with
  | false =>
    rw [hm] at hA hB
    simp at hA hB
    simp [hA, hB]
  | true => simp

theorem masked_shiftLeft {x M : ℕ} (h : x &&& M = x) (k : ℕ) :
    (x <<< k) &&& (M <<< k) = x <<< k := by
  apply Nat.eq_of_testBit_eq
  intro i
  simp only [Nat.testBit_and, Nat.testBit_shiftLeft]
  cases hk : decide (k ≤ i) with
  | false => simp
  | true =>
    have hA := congrArg (fun t => Nat.testBit t (i - k)) h
    simp only [Nat.testBit_and] at hA
    simp [hA]

theorem xor_eq_add {a b : ℕ} (h : a &&& b = 0) : a ^^^ b = a + b := by
  rw [← lor_eq_xor h, lor_eq_add h]

theorem xor4_masked_zero_iff (a0 a1 a2 a3 M0 M1 M2 M3 : ℕ)
    (h0 : a0 &&& M0 = a0) (h1 : a1 &&& M1 = a1) (h2 : a2 &&& M2 = a2)
    (h3 : a3 &&& M3 = a3)
    (d01 : M0 &&& M1 = 0) (d02 : M0 &&& M2 = 0) (d03 : M0 &&& M3 = 0)
    (d12 : M1 &&& M2 = 0) (d13 : M1 &&& M3 = 0) (d23 : M2 &&& M3 = 0) :
    a0 ^^^ a1 ^^^ a2 ^^^ a3 = 0 ↔ a0 = 0 ∧ a1 = 0 ∧ a2 = 0 ∧ a3 = 0 := by
  have e01 : a0 ^^^ a1 = a0 + a1 := xor_eq_add (masked_disjoint h0 h1 d01)
  have m01 : (a0 ||| a1) &&& (M0 ||| M1) = a0 ||| a1 := masked_lor h0 h1
  have e01o : a0 ^^^ a1 = a0 ||| a1 := (lor_eq_xor (masked_disjoint h0 h1 d01)).symm
  have d012 : (M0 ||| M1) &&& M2 = 0 := by
    rw [lor_land_distrib, d02, d12]
    simp
  have e2 : (a0 ^^^ a1) ^^^ a2 = (a0 ||| a1) + a2 := by
    rw [e01o]
    exact xor_eq_add (masked_disjoint m01 h2 d012)
  have m012 : ((a0 ||| a1) ||| a2) &&& ((M0 ||| M1) ||| M2) = (a0 ||| a1) ||| a2 :=
    masked_lor m01 h2
  have e2o : (a0 ^^^ a1) ^^^ a2 = (a0 ||| a1) ||| a2 := by
    rw [e01o]
    exact (lor_eq_xor (masked_disjoint m01 h2 d012)).symm
  have d0123 : ((M0 ||| M1) ||| M2) &&& M3 = 0 := by
    rw [lor_land_distrib, lor_land_distrib, d03, d13, d23]
    simp
  have e3 : ((a0 ^^^ a1) ^^^ a2) ^^^ a3 = ((a0 ||| a1) ||| a2) + a3 := by
    rw [e2o]
    exact xor_eq_add (masked_disjoint m012 h3 d0123)
  rw [e3, Nat.add_eq_zero]
  have e12 : (a0 ||| a1) = a0 + a1 := lor_eq_add (masked_disjoint h0 h1 d01)
  have e123 : (a0 ||| a1) ||| a2 = (a0 ||| a1) + a2 :=
    lor_eq_add (masked_disjoint m01 h2 d012)
  rw [e123, e12]
  omega

theorem shiftLeft_eq_zero_iff (x n : ℕ) : x <<< n = 0 ↔ x = 0 := by
  rw [Nat.shiftLeft_eq]
  constructor
  · intro h
    rcases Nat.mul_eq_zero.mp h with h | h
    · exact h
    · exact absurd h (Nat.pos_iff_ne_zero.mp (Nat.two_pow_pos n))
  · intro h
    simp [h]


theorem nib_decomp (s : ℕ) (hs : s < 65536) :
    s = nibbleAt s 0 ||| (nibbleAt s 1 <<< 4) ||| (nibbleAt s 2 <<< 8) |||
      (nibbleAt s 3 <<< 12) := by
  have h4 : orPack (nibbleAt s) 4 = s := by
    rw [orPack_mod s 4, show (16 : ℕ) ^ 4 = 65536 from by norm_num]
    omega
  conv_lhs => rw [← h4]
  simp only [orPack]
  norm_num

theorem unpackCol_lor (x y : ℕ) :
    unpackCol (x ||| y) = unpackCol x ||| unpackCol y := by
  apply Nat.eq_of_testBit_eq
  intro i
  unfold unpackCol
  simp only [Nat.testBit_or, Nat.testBit_and, Nat.testBit_shiftLeft,
    Bool.and_or_distrib_right, Bool.and_or_distrib_left]
  ac_rfl

theorem unpackCol_single : ∀ i, i < 4 → ∀ m, m < 16 →
    unpackCol (m <<< (4 * i)) = m <<< (16 * i) := by decide

theorem unpackCol_eq (s : ℕ) (hs : s < 65536) :
    unpackCol s = nibbleAt s 0 ||| (nibbleAt s 1 <<< 16) ||| (nibbleAt s 2 <<< 32) |||
      (nibbleAt s 3 <<< 48) := by
  conv_lhs => rw [nib_decomp s hs]
  rw [unpackCol_lor, unpackCol_lor, unpackCol_lor]
  have u0 : unpackCol (nibbleAt s 0) = nibbleAt s 0 := by
    have h := unpackCol_single 0 (by norm_num) _ (nibbleAt_lt s 0)
    simpa using h
  have u1 : unpackCol (nibbleAt s 1 <<< 4) = nibbleAt s 1 <<< 16 := by
    have h := unpackCol_single 1 (by norm_num) _ (nibbleAt_lt s 1)
    norm_num at h
    exact h
  have u2 : unpackCol (nibbleAt s 2 <<< 8) = nibbleAt s 2 <<< 32 := by
    have h := unpackCol_single 2 (by norm_num) _ (nibbleAt_lt s 2)
    norm_num at h
    exact h
  have u3 : unpackCol (nibbleAt s 3 <<< 12) = nibbleAt s 3 <<< 48 := by
    have h := unpackCol_single 3 (by norm_num) _ (nibbleAt_lt s 3)
    norm_num at h
    exact h
  rw [u0, u1, u2, u3]

theorem unpackCol_inj {x y : ℕ} (hx : x < 65536) (hy : y < 65536)
    (h : unpackCol x = unpackCol y) : x = y := by
  rw [unpackCol_eq x hx, unpackCol_eq y hy] at h
  have hb : ∀ s i, nibbleAt s i < 65536 :=
    fun s i => lt_trans (nibbleAt_lt s i) (by norm_num)
  obtain ⟨px0, px1, px2, px3⟩ := pack4_rowAt (nibbleAt x 0) (nibbleAt x 1) (nibbleAt x 2)
    (nibbleAt x 3) (hb x 0) (hb x 1) (hb x 2) (hb x 3)
  obtain ⟨py0, py1, py2, py3⟩ := pack4_rowAt (nibbleAt y 0) (nibbleAt y 1) (nibbleAt y 2)
    (nibbleAt y 3) (hb y 0) (hb y 1) (hb y 2) (hb y 3)
  have e0 : nibbleAt x 0 = nibbleAt y 0 := by rw [← px0, ← py0, h]
  have e1 : nibbleAt x 1 = nibbleAt y 1 := by rw [← px1, ← py1, h]
  have e2 : nibbleAt x 2 = nibbleAt y 2 := by rw [← px2, ← py2, h]
  have e3 : nibbleAt x 3 = nibbleAt y 3 := by rw [← px3, ← py3, h]
  rw [nib_decomp x hx, nib_decomp y hy, e0, e1, e2, e3]

theorem rowLeftTable_zero_iff (r : ℕ) : rowLeftTable r = 0 ↔ resultRow r = r := by
  unfold rowLeftTable
  rw [Nat.xor_eq_zero]
  exact eq_comm

theorem rowRightTable_zero_iff (q : ℕ) (hq : q < 65536) :
    rowRightTable q = 0 ↔ resultRow (reverseRow q) = reverseRow q := by
  unfold rowRightTable
  rw [Nat.xor_eq_zero]
  constructor
  · intro h
    have hc := congrArg reverseRow h
    rw [reverseRow_involutive (resultRow (reverseRow q)) (resultRow_lt _)] at hc
    exact hc.symm
  · intro h
    rw [h, reverseRow_involutive q hq]

theorem colUpTable_zero_iff (r : ℕ) (hr : r < 65536) :
    colUpTable r = 0 ↔ resultRow r = r := by
  unfold colUpTable
  rw [Nat.xor_eq_zero]
  constructor
  · intro h
    exact (unpackCol_inj hr (resultRow_lt r) h).symm
  · intro h
    rw [h]

theorem colDownTable_zero_iff (q : ℕ) (hq : q < 65536) :
    colDownTable q = 0 ↔ resultRow (reverseRow q) = reverseRow q := by
  unfold colDownTable
  rw [Nat.xor_eq_zero]
  constructor
  · intro h
    have h2 : q = reverseRow (resultRow (reverseRow q)) :=
      unpackCol_inj hq (reverseRow_lt _) h
    have hc := congrArg reverseRow h2
    rw [reverseRow_involutive (resultRow (reverseRow q)) (resultRow_lt _)] at hc
    exact hc.symm
  · intro h
    rw [h, reverseRow_involutive q hq]

theorem lt_masked_row {x : ℕ} (h : x < 65536) : x &&& ROW_MASK = x := by
  unfold ROW_MASK
  rw [land_ffff_eq_mod]
  omega

theorem rowLeftTable_masked (r : ℕ) (hr : r < 65536) :
    rowLeftTable r &&& ROW_MASK = rowLeftTable r := by
  unfold rowLeftTable
  exact masked_xor (lt_masked_row hr) (lt_masked_row (resultRow_lt r))

theorem rowRightTable_masked (r : ℕ) (hr : r < 65536) :
    rowRightTable r &&& ROW_MASK = rowRightTable r := by
  unfold rowRightTable
  exact masked_xor (lt_masked_row hr) (lt_masked_row (reverseRow_lt _))

theorem unpackCol_masked (r : ℕ) : unpackCol r &&& COL_MASK = unpackCol r := by
  unfold unpackCol
  rw [Nat.and_assoc, Nat.and_self]

theorem colUpTable_masked (r : ℕ) : colUpTable r &&& COL_MASK = colUpTable r := by
  unfold colUpTable
  exact masked_xor (unpackCol_masked r) (unpackCol_masked _)

theorem colDownTable_masked (q : ℕ) : colDownTable q &&& COL_MASK = colDownTable q := by
  unfold colDownTable
  exact masked_xor (unpackCol_masked q) (unpackCol_masked _)


theorem executeMove2_fix_iff (b : ℕ) :
    executeMove2 b = b ↔ ∀ k, k < 4 → resultRow (rowAt b k) = rowAt b k := by
  have e0 : (b >>> 0) &&& ROW_MASK = rowAt b 0 := by unfold rowAt; norm_num
  have e1 : (b >>> 16) &&& ROW_MASK = rowAt b 1 := by unfold rowAt; norm_num
  have e2 : (b >>> 32) &&& ROW_MASK = rowAt b 2 := by unfold rowAt; norm_num
  have e3 : (b >>> 48) &&& ROW_MASK = rowAt b 3 := by unfold rowAt; norm_num
  unfold executeMove2
  rw [e0, e1, e2, e3, xor_chain_eq_iff,
    xor4_masked_zero_iff _ _ _ _ (ROW_MASK <<< 0) (ROW_MASK <<< 16) (ROW_MASK <<< 32)
      (ROW_MASK <<< 48)
      (masked_shiftLeft (rowLeftTable_masked _ (rowAt_lt b 0)) 0)
      (masked_shiftLeft (rowLeftTable_masked _ (rowAt_lt b 1)) 16)
      (masked_shiftLeft (rowLeftTable_masked _ (rowAt_lt b 2)) 32)
      (masked_shiftLeft (rowLeftTable_masked _ (rowAt_lt b 3)) 48)
      (by decide) (by decide) (by decide) (by decide) (by decide) (by decide),
    shiftLeft_eq_zero_iff, shiftLeft_eq_zero_iff, shiftLeft_eq_zero_iff,
    shiftLeft_eq_zero_iff, rowLeftTable_zero_iff, rowLeftTable_zero_iff,
    rowLeftTable_zero_iff, rowLeftTable_zero_iff]
  constructor
  · rintro ⟨h0, h1, h2, h3⟩ k hk
    interval_cases k
    · exact h0
    · exact h1
    · exact h2
    · exact h3
  · intro h
    exact ⟨h 0 (by norm_num), h 1 (by norm_num), h 2 (by norm_num), h 3 (by norm_num)⟩

theorem executeMove3_fix_iff (b : ℕ) :
    executeMove3 b = b ↔
      ∀ k, k < 4 → resultRow (reverseRow (rowAt b k)) = reverseRow (rowAt b k) := by
  have e0 : (b >>> 0) &&& ROW_MASK = rowAt b 0 := by unfold rowAt; norm_num
  have e1 : (b >>> 16) &&& ROW_MASK = rowAt b 1 := by unfold rowAt; norm_num
  have e2 : (b >>> 32) &&& ROW_MASK = rowAt b 2 := by unfold rowAt; norm_num
  have e3 : (b >>> 48) &&& ROW_MASK = rowAt b 3 := by unfold rowAt; norm_num
  unfold executeMove3
  rw [e0, e1, e2, e3, xor_chain_eq_iff,
    xor4_masked_zero_iff _ _ _ _ (ROW_MASK <<< 0) (ROW_MASK <<< 16) (ROW_MASK <<< 32)
      (ROW_MASK <<< 48)
      (masked_shiftLeft (rowRightTable_masked _ (rowAt_lt b 0)) 0)
      (masked_shiftLeft (rowRightTable_masked _ (rowAt_lt b 1)) 16)
      (masked_shiftLeft (rowRightTable_masked _ (rowAt_lt b 2)) 32)
      (masked_shiftLeft (rowRightTable_masked _ (rowAt_lt b 3)) 48)
      (by decide) (by decide) (by decide) (by decide) (by decide) (by decide),
    shiftLeft_eq_zero_iff, shiftLeft_eq_zero_iff, shiftLeft_eq_zero_iff,
    shiftLeft_eq_zero_iff, rowRightTable_zero_iff _ (rowAt_lt b 0),
    rowRightTable_zero_iff _ (rowAt_lt b 1), rowRightTable_zero_iff _ (rowAt_lt b 2),
    rowRightTable_zero_iff _ (rowAt_lt b 3)]
  constructor
  · rintro ⟨h0, h1, h2, h3⟩ k hk
    interval_cases k
    · exact h0
    · exact h1
    · exact h2
    · exact h3
  · intro h
    exact ⟨h 0 (by norm_num), h 1 (by norm_num), h 2 (by norm_num), h 3 (by norm_num)⟩

theorem executeMove0_fix_iff (b : ℕ) :
    executeMove0 b = b ↔
      ∀ k, k < 4 → resultRow (rowAt (transpose b) k) = rowAt (transpose b) k := by
  have e0 : (transpose b >>> 0) &&& ROW_MASK = rowAt (transpose b) 0 := by
    unfold rowAt; norm_num
  have e1 : (transpose b >>> 16) &&& ROW_MASK = rowAt (transpose b) 1 := by
    unfold rowAt; norm_num
  have e2 : (transpose b >>> 32) &&& ROW_MASK = rowAt (transpose b) 2 := by
    unfold rowAt; norm_num
  have e3 : (transpose b >>> 48) &&& ROW_MASK = rowAt (transpose b) 3 := by
    unfold rowAt; norm_num
  simp only [executeMove0]
  rw [e0, e1, e2, e3, xor_chain_eq_iff,
    xor4_masked_zero_iff _ _ _ _ (COL_MASK <<< 0) (COL_MASK <<< 4) (COL_MASK <<< 8)
      (COL_MASK <<< 12)
      (masked_shiftLeft (colUpTable_masked _) 0)
      (masked_shiftLeft (colUpTable_masked _) 4)
      (masked_shiftLeft (colUpTable_masked _) 8)
      (masked_shiftLeft (colUpTable_masked _) 12)
      (by decide) (by decide) (by decide) (by decide) (by decide) (by decide),
    shiftLeft_eq_zero_iff, shiftLeft_eq_zero_iff, shiftLeft_eq_zero_iff,
    shiftLeft_eq_zero_iff, colUpTable_zero_iff _ (rowAt_lt _ 0),
    colUpTable_zero_iff _ (rowAt_lt _ 1), colUpTable_zero_iff _ (rowAt_lt _ 2),
    colUpTable_zero_iff _ (rowAt_lt _ 3)]
  constructor
  · rintro ⟨h0, h1, h2, h3⟩ k hk
    interval_cases k
    · exact h0
    · exact h1
    · exact h2
    · exact h3
  · intro h
    exact ⟨h 0 (by norm_num), h 1 (by norm_num), h 2 (by norm_num), h 3 (by norm_num)⟩

theorem executeMove1_fix_iff (b : ℕ) :
    executeMove1 b = b ↔
      ∀ k, k < 4 → resultRow (reverseRow (rowAt (transpose b) k)) =
        reverseRow (rowAt (transpose b) k) := by
  have e0 : (transpose b >>> 0) &&& ROW_MASK = rowAt (transpose b) 0 := by
    unfold rowAt; norm_num
  have e1 : (transpose b >>> 16) &&& ROW_MASK = rowAt (transpose b) 1 := by
    unfold rowAt; norm_num
  have e2 : (transpose b >>> 32) &&& ROW_MASK = rowAt (transpose b) 2 := by
    unfold rowAt; norm_num
  have e3 : (transpose b >>> 48) &&& ROW_MASK = rowAt (transpose b) 3 := by
    unfold rowAt; norm_num
  simp only [executeMove1]
  rw [e0, e1, e2, e3, xor_chain_eq_iff,
    xor4_masked_zero_iff _ _ _ _ (COL_MASK <<< 0) (COL_MASK <<< 4) (COL_MASK <<< 8)
      (COL_MASK <<< 12)
      (masked_shiftLeft (colDownTable_masked _) 0)
      (masked_shiftLeft (colDownTable_masked _) 4)
      (masked_shiftLeft (colDownTable_masked _) 8)
      (masked_shiftLeft (colDownTable_masked _) 12)
      (by decide) (by decide) (by decide) (by decide) (by decide) (by decide),
    shiftLeft_eq_zero_iff, shiftLeft_eq_zero_iff, shiftLeft_eq_zero_iff,
    shiftLeft_eq_zero_iff, colDownTable_zero_iff _ (rowAt_lt _ 0),
    colDownTable_zero_iff _ (rowAt_lt _ 1), colDownTable_zero_iff _ (rowAt_lt _ 2),
    colDownTable_zero_iff _ (rowAt_lt _ 3)]
  constructor
  · rintro ⟨h0, h1, h2, h3⟩ k hk
    interval_cases k
    · exact h0
    · exact h1
    · exact h2
    · exact h3
  · intro h
    exact ⟨h 0 (by norm_num), h 1 (by norm_num), h 2 (by norm_num), h 3 (by norm_num)⟩


theorem executeMove_fix_iff (d b : ℕ) (hd : d < 4) :
    executeMove d b = b ↔ ∀ k, k < 4 → noMoveLine (orientedLine d b k) := by
  interval_cases d
  · rw [show executeMove 0 b = executeMove0 b from rfl, executeMove0_fix_iff]
    simp only [orientedLine]
    constructor
    · intro h k hk
      exact (resultRow_fix_iff _ (rowAt_lt _ _)).mp (h k hk)
    · intro h k hk
      exact (resultRow_fix_iff _ (rowAt_lt _ _)).mpr (h k hk)
  · rw [show executeMove 1 b = executeMove1 b from rfl, executeMove1_fix_iff]
    simp only [orientedLine]
    constructor
    · intro h k hk
      exact (resultRow_fix_iff _ (reverseRow_lt _)).mp (h k hk)
    · intro h k hk
      exact (resultRow_fix_iff _ (reverseRow_lt _)).mpr (h k hk)
  · rw [show executeMove 2 b = executeMove2 b from rfl, executeMove2_fix_iff]
    simp only [orientedLine]
    constructor
    · intro h k hk
      exact (resultRow_fix_iff _ (rowAt_lt _ _)).mp (h k hk)
    · intro h k hk
      exact (resultRow_fix_iff _ (rowAt_lt _ _)).mpr (h k hk)
  · rw [show executeMove 3 b = executeMove3 b from rfl, executeMove3_fix_iff]
    simp only [orientedLine]
    constructor
    · intro h k hk
      exact (resultRow_fix_iff _ (reverseRow_lt _)).mp (h k hk)
    · intro h k hk
      exact (resultRow_fix_iff _ (reverseRow_lt _)).mpr (h k hk)

/-- Claim C1 (amended).  The claimed unconditional idempotence
`executeMove d (executeMove d b) = executeMove d b` is false (see the
counterexample); what holds is the characterisation: a second application
of the same move is the identity exactly when every line of the once-moved
board, read in the sliding orientation of `d`, admits no further slide or
merge (its nonzero cells form a prefix with no equal adjacent nonzero
pair).  A slide can create new equal adjacent pairs, which a second
application then merges. -/
theorem c1_theorem (b d : ℕ) (hd : d < 4) :
    executeMove d (executeMove d b) = executeMove d b ↔
      ∀ k, k < 4 → noMoveLine (orientedLine d (executeMove d b) k) :=
  executeMove_fix_iff d (executeMove d b) hd

/-- Counterexample to the literal claim C1: the board with a single row
`[1, 1, 2, 0]` (value `0x211`) moves left to `[2, 2, 0, 0]` (`0x22`), and a
second left move merges again, giving `[3, 0, 0, 0]` (`0x3`). -/
theorem c1_counterexample :
    executeMove 2 0x211 = 0x22 ∧ executeMove 2 (executeMove 2 0x211) = 0x3 ∧
      (0x3 : ℕ) ≠ 0x22 :=
  ⟨by decide, by decide, by decide⟩

/-- Witness for the amended claim C1 at a concrete board and direction. -/
theorem c1_witness :
    (2 : ℕ) < 4 ∧
      (executeMove 2 (executeMove 2 0x211) = executeMove 2 0x211 ↔
        ∀ k, k < 4 → noMoveLine (orientedLine 2 (executeMove 2 0x211) k)) :=
  ⟨by decide, c1_theorem 0x211 2 (by decide)⟩

end Ai2048
